import Mathlib

/-!
# SCIHebrew binary resource codecs — shallow embedding

Shallow embedding of the binary-resource codec layer of the SCIHebrew
repository (scripts/create_msg.py, scripts/parse_msg.py, scripts/build_font.py,
scripts/parse_font.py, scripts/tex2tsv.py, scripts/tsv2tex.py,
scripts/translate_texts.py), together with proofs about the format
invariants those scripts implement.

Byte buffers are modelled as `List Nat` (each element a byte value < 256);
Python strings are modelled as lists of Unicode scalar values (`List Nat`).
Fallible operations (Python exceptions / `sys.exit`) are modelled with
`Option`.  `struct.pack` of an in-range value is modelled with explicit
`% 256` arithmetic; theorems that depend on byte faithfulness carry the
corresponding range hypotheses.
-/

namespace SCIHebrew


/-- Element-wise fallible map: a Python `for` loop that transforms each
element and lets an exception from any element abort the whole loop. -/
def mapOpt (f : α → Option β) : List α → Option (List β)
  | [] => some []
  | a :: l =>
    match f a with
    | none => none
    | some b => (mapOpt f l).map (fun t => b :: t)

/-- Little-endian 2-byte encoding, as produced by `struct.pack('<H', v)`
for `v < 65536` (the Python call raises out of that range). -/
def pack16 (v : Nat) : List Nat := [v % 256, v / 256 % 256]

/-- Little-endian 4-byte encoding, as produced by `struct.pack('<L', v)`
for `v < 2^32`. -/
def pack32 (v : Nat) : List Nat :=
  [v % 256, v / 256 % 256, v / 65536 % 256, v / 16777216 % 256]

/-- Little-endian read of the first two bytes of a list
(`struct.unpack('<H', ...)`). -/
def le16 (l : List Nat) : Nat := l.getD 0 0 + 256 * l.getD 1 0

/-- Little-endian read of the first four bytes of a list
(`struct.unpack('<L', ...)`). -/
def le32 (l : List Nat) : Nat :=
  l.getD 0 0 + 256 * l.getD 1 0 + 65536 * l.getD 2 0 + 16777216 * l.getD 3 0

/-- An exact `n`-byte read at absolute position `pos`: Python's
`f.read(n)` followed by a fixed-size `struct.unpack`, which raises
(`struct.error`) whenever fewer than `n` bytes remain. -/
def readExact (bs : List Nat) (pos n : Nat) : Option (List Nat) :=
  if pos + n ≤ bs.length then some ((bs.drop pos).take n) else none

/-- A clamped read at absolute position `pos`: Python's bare `f.read(n)`,
which silently returns the at-most-`n` bytes that remain. -/
def readClamped (bs : List Nat) (pos n : Nat) : List Nat :=
  (bs.drop pos).take n

/-- The null-terminated-string read loop of `parse_msg_file`
(`scripts/parse_msg.py` lines 88-93): read bytes one at a time until a
zero byte *or end of buffer* is hit. -/
def readCString (bs : List Nat) (pos : Nat) : List Nat :=
  (bs.drop pos).takeWhile (fun b => b ≠ 0)

/-! ## Text codecs

The Python scripts call into the standard-library codecs `CP862`,
`windows-1255`, `utf-8` and `latin1`.  Those codec tables are not part of
this repository; they are modelled here explicitly.  `cp862` is modelled
with its full 256-entry decoding table (every byte decodes — the codec is
total).  `windows-1255` is modelled on the sub-table actually exercised by
this repository's data: the ASCII range (identity) and the Hebrew letter
block `U+05D0..U+05EA` (mapped to `0xE0..0xFA`); code points outside the
modelled sub-table are treated as unencodable, and bytes outside it as
undecodable, exactly as windows-1255 treats e.g. `U+03B1` / byte `0xFB`.
`utf-8` and `latin1` are modelled in full. -/

/-- High half (bytes `0x80..0xFF`) of the CP862 decoding table:
Hebrew letters at `0x80..0x9A`, then the CP437-compatible symbol,
box-drawing, Greek and math ranges.  Every byte value is defined. -/
def cp862Hi : List Nat :=
  [0x5D0, 0x5D1, 0x5D2, 0x5D3, 0x5D4, 0x5D5, 0x5D6, 0x5D7,
   0x5D8, 0x5D9, 0x5DA, 0x5DB, 0x5DC, 0x5DD, 0x5DE, 0x5DF,
   0x5E0, 0x5E1, 0x5E2, 0x5E3, 0x5E4, 0x5E5, 0x5E6, 0x5E7,
   0x5E8, 0x5E9, 0x5EA, 0x0A2, 0x0A3, 0x0A5, 0x20A7, 0x192,
   0x0E1, 0x0ED, 0x0F3, 0x0FA, 0x0F1, 0x0D1, 0x0AA, 0x0BA,
   0x0BF, 0x2310, 0x0AC, 0x0BD, 0x0BC, 0x0A1, 0x0AB, 0x0BB,
   0x2591, 0x2592, 0x2593, 0x2502, 0x2524, 0x2561, 0x2562, 0x2556,
   0x2555, 0x2563, 0x2551, 0x2557, 0x255D, 0x255C, 0x255B, 0x2510,
   0x2514, 0x2534, 0x252C, 0x251C, 0x2500, 0x253C, 0x255E, 0x255F,
   0x255A, 0x2554, 0x2569, 0x2566, 0x2560, 0x2550, 0x256C, 0x2567,
   0x2568, 0x2564, 0x2565, 0x2559, 0x2558, 0x2552, 0x2553, 0x256B,
   0x256A, 0x2518, 0x250C, 0x2588, 0x2584, 0x258C, 0x2590, 0x2580,
   0x3B1, 0x0DF, 0x393, 0x3C0, 0x3A3, 0x3C3, 0x0B5, 0x3C4,
   0x3A6, 0x398, 0x3A9, 0x3B4, 0x221E, 0x3C6, 0x3B5, 0x2229,
   0x2261, 0x0B1, 0x2265, 0x2264, 0x2320, 0x2321, 0x0F7, 0x2248,
   0x0B0, 0x2219, 0x0B7, 0x221A, 0x207F, 0x0B2, 0x25A0, 0x0A0]

/-- CP862 byte decoding: total over all byte values (`b < 256`). -/
def cp862DecodeByte (b : Nat) : Option Nat :=
  if b < 128 then some b
  else if b < 256 then some (cp862Hi.getD (b - 128) 0)
  else none

/-- windows-1255 per-character encoding (partial model, see section
comment): ASCII is the identity, the Hebrew letter block
`U+05D0..U+05EA` maps onto `0xE0..0xFA`; all other code points are
unencodable. -/
def win1255EncodeChar (c : Nat) : Option Nat :=
  if c < 128 then some c
  else if 0x5D0 ≤ c ∧ c ≤ 0x5EA then some (c - 0x5D0 + 0xE0)
  else none

/-- windows-1255 per-byte decoding (partial model, inverse of
`win1255EncodeChar`): ASCII bytes decode to themselves, bytes
`0xE0..0xFA` to the Hebrew letters; other bytes are undecodable. -/
def win1255DecodeByte (b : Nat) : Option Nat :=
  if b < 128 then some b
  else if 0xE0 ≤ b ∧ b ≤ 0xFA then some (b - 0xE0 + 0x5D0)
  else none

/-- UTF-8 encoding of one Unicode scalar value; `none` exactly on the
surrogate range and above `U+10FFFF`, where Python's `str.encode('utf-8')`
raises. -/
def utf8EncodeChar (c : Nat) : Option (List Nat) :=
  if c < 0x80 then some [c]
  else if c < 0x800 then some [0xC0 + c / 64, 0x80 + c % 64]
  else if c < 0x10000 then
    if 0xD800 ≤ c ∧ c ≤ 0xDFFF then none
    else some [0xE0 + c / 4096, 0x80 + c / 64 % 64, 0x80 + c % 64]
  else if c < 0x110000 then
    some [0xF0 + c / 262144, 0x80 + c / 4096 % 64, 0x80 + c / 64 % 64, 0x80 + c % 64]
  else none

/-- Strict UTF-8 decoding of a byte sequence (Python `bytes.decode('utf-8')`):
`none` on any ill-formed sequence. -/
def utf8Decode : List Nat → Option (List Nat)
  | [] => some []
  | b :: rest =>
    if b < 0x80 then (utf8Decode rest).map (fun s => b :: s)
    else if 0xC2 ≤ b ∧ b < 0xE0 then
      match rest with
      | b2 :: r2 =>
        if 0x80 ≤ b2 ∧ b2 < 0xC0 then
          (utf8Decode r2).map (fun s => ((b - 0xC0) * 64 + (b2 - 0x80)) :: s)
        else none
      | [] => none
    else if 0xE0 ≤ b ∧ b < 0xF0 then
      match rest with
      | b2 :: b3 :: r3 =>
        if (if b = 0xE0 then 0xA0 ≤ b2 ∧ b2 < 0xC0
            else if b = 0xED then 0x80 ≤ b2 ∧ b2 < 0xA0
            else 0x80 ≤ b2 ∧ b2 < 0xC0) ∧ 0x80 ≤ b3 ∧ b3 < 0xC0 then
          (utf8Decode r3).map
            (fun s => ((b - 0xE0) * 4096 + (b2 - 0x80) * 64 + (b3 - 0x80)) :: s)
        else none
      | _ => none
    else if 0xF0 ≤ b ∧ b < 0xF5 then
      match rest with
      | b2 :: b3 :: b4 :: r4 =>
        if (if b = 0xF0 then 0x90 ≤ b2 ∧ b2 < 0xC0
            else if b = 0xF4 then 0x80 ≤ b2 ∧ b2 < 0x90
            else 0x80 ≤ b2 ∧ b2 < 0xC0) ∧
           (0x80 ≤ b3 ∧ b3 < 0xC0) ∧ (0x80 ≤ b4 ∧ b4 < 0xC0) then
          (utf8Decode r4).map
            (fun s => ((b - 0xF0) * 262144 + (b2 - 0x80) * 4096 +
                       (b3 - 0x80) * 64 + (b4 - 0x80)) :: s)
        else none
      | _ => none
    else none

/-- Latin-1 per-character encoding: every code point below 256. -/
def latin1EncodeChar (c : Nat) : Option Nat :=
  if c < 256 then some c else none

/-- Latin-1 decoding of a byte list: total over byte values. -/
def latin1Decode (bs : List Nat) : Option (List Nat) :=
  mapOpt (fun b => if b < 256 then some b else none) bs

/-- The text-encoding fallback chain of `create_msg_file`
(`scripts/create_msg.py` lines 53-64): try `windows-1255` on the whole
string; on failure try `utf-8`; on failure `latin1`. -/
def msgEncodeText (t : List Nat) : Option (List Nat) :=
  match mapOpt win1255EncodeChar t with
  | some bs => some bs
  | none =>
    match mapOpt utf8EncodeChar t with
    | some parts => some parts.flatten
    | none => mapOpt latin1EncodeChar t

/-- The text-decoding fallback chain of `parse_msg_file`
(`scripts/parse_msg.py` lines 96-102): try `CP862`; on failure `utf-8`;
on failure `latin1`. -/
def msgDecodeText (bs : List Nat) : Option (List Nat) :=
  match mapOpt cp862DecodeByte bs with
  | some s => some s
  | none =>
    match utf8Decode bs with
    | some s => some s
    | none => latin1Decode bs

/-! ## Indexed message table codec (`create_msg.py` / `parse_msg.py`) -/

/-- One row of the message CSV / one parsed message: the nine single-byte
fields, the `text_offset` column (read from the CSV but recalculated by
the builder), and the text. -/
structure MsgRecord where
  noun : Nat
  verb : Nat
  case_ : Nat
  sequence : Nat
  talker : Nat
  textOffset : Nat
  refNoun : Nat
  refVerb : Nat
  refCase : Nat
  refSequence : Nat
  text : List Nat
  deriving Repr, DecidableEq

/-- Encode every record's text through the fallback chain. -/
def msgEncodeAll (recs : List MsgRecord) : Option (List (List Nat)) :=
  mapOpt (fun r => msgEncodeText r.text) recs

/-- The running-offset loop of `create_msg_file` (lines 50-71): starting
from `current_text_offset`, each text's stored offset is the running
value minus 2, and the running value then advances by the encoded length
plus one (the null terminator). -/
def msgOffsetsFrom (cur : Nat) : List (List Nat) → List Nat
  | [] => []
  | e :: rest => (cur - 2) :: msgOffsetsFrom (cur + (e.length + 1)) rest

/-- The stored text offsets computed by the builder: the running offset
starts at `12 + count * 11` (line 50 of `create_msg.py`). -/
def msgOffsets (encs : List (List Nat)) : List Nat :=
  msgOffsetsFrom (12 + encs.length * 11) encs

/-- `header_size` of `create_msg_file` line 76: lastId + count + all
message headers, each header 11 bytes. -/
def msgHeaderSize (count : Nat) : Nat := 2 + 2 + count * 11

/-- `text_size` of `create_msg_file` line 77: each text plus its null
terminator. -/
def msgTextSize (encs : List (List Nat)) : Nat :=
  (encs.map (fun e => e.length + 1)).sum

/-- The 11 bytes written for one message header (lines 107-117 of
`create_msg.py`): five category bytes, the u16 stored offset, four
cross-reference bytes. -/
def msgRecordBytes (r : MsgRecord) (off : Nat) : List Nat :=
  [r.noun % 256, r.verb % 256, r.case_ % 256, r.sequence % 256, r.talker % 256] ++
  pack16 off ++
  [r.refNoun % 256, r.refVerb % 256, r.refCase % 256, r.refSequence % 256]

/-- `create_msg_file` (`scripts/create_msg.py`): encode all texts, compute
the stored offsets and `data_size`, then emit resType/headerSize bytes,
`sciVersion = 5010`, `dataSize`, `lastId = 338`, `count`, the message
headers, and each encoded text followed by one null terminator.
`none` models the encoding chain raising. -/
def create_msg_file (recs : List MsgRecord) : Option (List Nat) :=
  match msgEncodeAll recs with
  | none => none
  | some encs =>
    some ([0x0F, 0x00] ++ pack32 5010 ++
      pack16 (msgHeaderSize recs.length + msgTextSize encs) ++
      pack16 338 ++ pack16 recs.length ++
      ((recs.zip (msgOffsets encs)).map (fun p => msgRecordBytes p.1 p.2)).flatten ++
      (encs.map (fun e => e ++ [0])).flatten)

/-- Read one 11-byte message header at `pos`
(`scripts/parse_msg.py` lines 50-75). -/
def readMsgHeader (bs : List Nat) (pos : Nat) : Option MsgRecord :=
  match readExact bs pos 11 with
  | none => none
  | some l =>
    some { noun := l.getD 0 0, verb := l.getD 1 0, case_ := l.getD 2 0,
           sequence := l.getD 3 0, talker := l.getD 4 0,
           textOffset := l.getD 5 0 + 256 * l.getD 6 0,
           refNoun := l.getD 7 0, refVerb := l.getD 8 0,
           refCase := l.getD 9 0, refSequence := l.getD 10 0,
           text := [] }

/-- Read `n` consecutive 11-byte message headers starting at `pos`. -/
def readMsgHeaders (bs : List Nat) (pos : Nat) : Nat → Option (List MsgRecord)
  | 0 => some []
  | n + 1 =>
    match readMsgHeader bs pos with
    | none => none
    | some h => (readMsgHeaders bs (pos + 11) n).map (fun t => h :: t)

/-- `parse_msg_file` (`scripts/parse_msg.py`): skip the 2-byte header and
4-byte version, read `dataSize`, `lastId`, `count` (each failing on a
short buffer), read `count` 11-byte headers, then for each header seek to
`2 + textOffset`, read a null-terminated string (end of buffer also
terminates) and decode it through the fallback chain. -/
def parse_msg_file (bs : List Nat) : Option (List MsgRecord) :=
  match readExact bs 6 2, readExact bs 8 2, readExact bs 10 2 with
  | some _ds, some _li, some cnt =>
    match readMsgHeaders bs 12 (le16 cnt) with
    | none => none
    | some hs =>
      mapOpt (fun h =>
        (msgDecodeText (readCString bs (2 + h.textOffset))).map
          (fun t => { h with text := t })) hs
  | _, _, _ => none

/-! ## Claims C1, C3, C9, C7 — message-table builder -/

/-- A message record whose every field is zero and whose text is empty. -/
def msgRec0 : MsgRecord := ⟨0, 0, 0, 0, 0, 0, 0, 0, 0, 0, []⟩

/-- The two concrete records of C7: texts `"A"` and `"BB"`. -/
def c7recA : MsgRecord := ⟨1, 2, 3, 4, 5, 0, 6, 7, 8, 9, [65]⟩

/-- Second record of C7. -/
def c7recBB : MsgRecord := ⟨10, 11, 12, 13, 14, 0, 15, 16, 17, 18, [66, 66]⟩

/-- The file built from the two C7 records. -/
def c7out : List Nat := (create_msg_file [c7recA, c7recBB]).getD []

/-! ## Null-terminated string resource codec
(`tex2tsv.py`, `tsv2tex.py`, `translate_texts.py`) -/

/-- Python's `bytes.split(b'\x00')`: split on every zero byte.  The
result always has one more chunk than there are zero bytes; in
particular `b''.split(b'\x00') == [b'']`. -/
def splitNull : List Nat → List (List Nat)
  | [] => [[]]
  | b :: t =>
    if b = 0 then [] :: splitNull t
    else
      match splitNull t with
      | [] => [[b]]
      | h :: r => (b :: h) :: r

/-- The per-chunk decode of `read_tex_strings` (`scripts/tex2tsv.py`
lines 39-45): decode with the windows-1255 codec; on
`UnicodeDecodeError` warn and substitute the empty string. -/
def texDecodeChunk (chunk : List Nat) : List Nat :=
  match mapOpt win1255DecodeByte chunk with
  | some s => s
  | none => []

/-- `read_tex_strings` (`scripts/tex2tsv.py`): read and skip the 2-byte
magic header (mismatch only warns), split the remaining bytes on the
null byte, and decode every chunk except the last one (the implicit
empty chunk after the final terminator). -/
def read_tex_strings (bs : List Nat) : List (List Nat) :=
  ((splitNull (bs.drop 2)).dropLast).map texDecodeChunk

/-- `convert_tsv_to_tex` (`scripts/tsv2tex.py`), restricted to the
extracted field strings: write the magic `0x83 0x00`, then each string's
windows-1255 encoding followed by one null terminator.  An unencodable
character raises `UnicodeEncodeError`, which only the script-level
handler catches before exiting: modelled as `none`. -/
def convert_tsv_to_tex (ss : List (List Nat)) : Option (List Nat) :=
  (mapOpt (fun s => mapOpt win1255EncodeChar s) ss).map
    (fun encs => [0x83, 0x00] ++ (encs.map (fun e => e ++ [0])).flatten)

/-- The per-string output encoding of `apply_translations`
(`scripts/translate_texts.py` line 157): plain
`str.encode(translated, 'windows-1255')`, no fallback. -/
def translateEncodeString (s : List Nat) : Option (List Nat) :=
  mapOpt win1255EncodeChar s

/-! ## Message-table round trip: `parse_msg_file ∘ create_msg_file` -/

/-- All nine single-byte fields of a record are in byte range. -/
def msgFieldsOk (r : MsgRecord) : Prop :=
  r.noun < 256 ∧ r.verb < 256 ∧ r.case_ < 256 ∧ r.sequence < 256 ∧
  r.talker < 256 ∧ r.refNoun < 256 ∧ r.refVerb < 256 ∧ r.refCase < 256 ∧
  r.refSequence < 256

/-- A nonzero-ASCII text: every scalar is strictly between 0 and 128. -/
def asciiText (t : List Nat) : Prop := ∀ c ∈ t, 0 < c ∧ c < 128

/-- A record paired with a stored offset, as the parser's first loop
leaves it: text not yet attached. -/
def hdrOf (p : MsgRecord × Nat) : MsgRecord :=
  ⟨p.1.noun, p.1.verb, p.1.case_, p.1.sequence, p.1.talker, p.2,
   p.1.refNoun, p.1.refVerb, p.1.refCase, p.1.refSequence, []⟩

/-- A record with its stored offset and its own text, as the parser's
second loop returns it. -/
def recOf (p : MsgRecord × Nat) : MsgRecord :=
  ⟨p.1.noun, p.1.verb, p.1.case_, p.1.sequence, p.1.talker, p.2,
   p.1.refNoun, p.1.refVerb, p.1.refCase, p.1.refSequence, p.1.text⟩

/-! ## Bitmap font codec (`build_font.py` / `parse_font.py`)

A PNG character image is modelled as its pixel grid: `height` rows of
`width` booleans (`true` = foreground).  `parse_font` extracts one grid
per non-empty, complete glyph (indexed by character number, exactly the
PNG files the script writes); `build_font` consumes such an indexed
collection, gap-filling missing indices with empty glyphs. -/

structure Glyph where
  width : Nat
  height : Nat
  rows : List (List Bool)
  deriving Repr, DecidableEq

/-- `bytes_per_row = (width + 7) // 8`. -/
def rowBytesOf (w : Nat) : Nat := (w + 7) / 8

/-- One packed byte of one row (`read_png_to_bitmap` inner loop,
`scripts/build_font.py` lines 29-39): bit `7 - bit_idx` is set when
pixel `x = byte_idx*8 + bit_idx` lies inside the row and is set. -/
def packRowByte (row : List Bool) (byteIdx w : Nat) : Nat :=
  (List.range 8).foldl (fun acc bitIdx =>
    if byteIdx * 8 + bitIdx < w ∧ row.getD (byteIdx * 8 + bitIdx) false then
      acc ||| (1 <<< (7 - bitIdx))
    else acc) 0

/-- `read_png_to_bitmap`: row-major packing, `ceil(width/8)` bytes per
row. -/
def read_png_to_bitmap (g : Glyph) : List Nat :=
  (g.rows.map (fun row => (List.range (rowBytesOf g.width)).map
    (fun bi => packRowByte row bi g.width))).flatten

/-- One decoded pixel of `create_image` (`scripts/parse_font.py` lines
22-29): bit `7 - x%8` of byte `y*bytes_per_row + x/8`, background when
the byte index is out of range. -/
def unpackPixel (w : Nat) (bm : List Nat) (x y : Nat) : Bool :=
  if y * rowBytesOf w + x / 8 < bm.length then
    (bm.getD (y * rowBytesOf w + x / 8) 0 >>> (7 - x % 8)) % 2 = 1
  else false

/-- `create_image`: the full `width × height` pixel grid of a packed
bitmap. -/
def create_image (w h : Nat) (bm : List Nat) : Glyph :=
  ⟨w, h, (List.range h).map (fun y => (List.range w).map (fun x => unpackPixel w bm x y))⟩

/-- `char_data[i]` of `build_font` (lines 77-90): the indexed image when
present, the empty character `(0, 0, b'')` otherwise. -/
def charDataOf (entries : List (Nat × Glyph)) (i : Nat) : Nat × Nat × List Nat :=
  match entries.find? (fun e => e.1 == i) with
  | some e => (e.2.width, e.2.height, read_png_to_bitmap e.2)
  | none => (0, 0, [])

/-- `max_char` over the provided character numbers. -/
def maxIndex (entries : List (Nat × Glyph)) : Nat :=
  (entries.map (fun e => e.1)).foldl max 0

/-- The pointer table of `build_font` (lines 105-114): each slot's true
offset is the running offset, stored biased by −2; the running offset
advances by 2 (width and height bytes) plus the bitmap size. -/
def fontPtrsFrom (cur : Nat) : List (Nat × Nat × List Nat) → List Nat
  | [] => []
  | d :: rest => (cur - 2) :: fontPtrsFrom (cur + (2 + d.2.2.length)) rest

/-- One glyph payload: width byte, height byte, bitmap bytes. -/
def glyphPayload (d : Nat × Nat × List Nat) : List Nat :=
  [d.1 % 256, d.2.1 % 256] ++ d.2.2

/-- `build_font` (`scripts/build_font.py`): fails with no input images;
otherwise writes `reserved = 0x87`, `numChars = max_char + 1`, the line
height passed as a parameter, the −2-biased pointer table, and the glyph
payloads in slot order. -/
def build_font (entries : List (Nat × Glyph)) (lineHeight : Nat) : Option (List Nat) :=
  if entries.isEmpty then none
  else
    let n := maxIndex entries + 1
    let datas := (List.range n).map (charDataOf entries)
    some (pack32 0x87 ++ pack16 n ++ pack16 lineHeight ++
      ((fontPtrsFrom (8 + 2 * n) datas).map pack16).flatten ++
      (datas.map glyphPayload).flatten)

/-- Read `numChars` u16 pointer entries (`scripts/parse_font.py` lines
54-57); a short buffer fails the parse. -/
def readPtrs (bs : List Nat) (pos : Nat) : Nat → Option (List Nat)
  | 0 => some []
  | k + 1 =>
    match readExact bs pos 2 with
    | none => none
    | some l => (readPtrs bs (pos + 2) k).map (fun t => le16 l :: t)

/-- Read the glyph whose payload starts at `addr` (lines 62-81 of
`scripts/parse_font.py`).  Outer `none`: the width or height byte is
past end-of-buffer (`struct.error` aborts the parse).  `some none`: the
glyph is skipped — either empty (width or height 0) or its bitmap read
came back short ("Incomplete data", loop continues). -/
def readGlyphAt (bs : List Nat) (addr : Nat) : Option (Option Glyph) :=
  match readExact bs addr 1, readExact bs (addr + 1) 1 with
  | some wl, some hl =>
    let w := wl.getD 0 0
    let h := hl.getD 0 0
    if w = 0 ∨ h = 0 then some none
    else
      let size := h * rowBytesOf w
      let bm := readClamped bs (addr + 2) size
      if bm.length < size then some none
      else some (some (create_image w h bm))
  | _, _ => none

/-- The character loop of `parse_font`: seek to `pointer + 2` for each
slot, collecting the successfully extracted glyphs with their indices. -/
def readGlyphsFrom (bs : List Nat) : Nat → List Nat → Option (List (Nat × Glyph))
  | _, [] => some []
  | i, p :: rest =>
    match readGlyphAt bs (p + 2) with
    | none => none
    | some none => readGlyphsFrom bs (i + 1) rest
    | some (some g) => (readGlyphsFrom bs (i + 1) rest).map (fun t => (i, g) :: t)

/-- Everything `parse_font` extracts from a font binary: the three
header fields and the per-index pixel grids it exports. -/
structure FontParsed where
  reserved : Nat
  numChars : Nat
  lineHeight : Nat
  glyphs : List (Nat × Glyph)
  deriving Repr, DecidableEq

/-- `parse_font` (`scripts/parse_font.py`): read the header
(`reserved: u32`, `numChars: u16`, `lineHeight: u16`), the pointer
table, then every glyph (seeking to `pointer + 2`). -/
def parse_font (bs : List Nat) : Option FontParsed :=
  match readExact bs 0 4, readExact bs 4 2, readExact bs 6 2 with
  | some rl, some nl, some ll =>
    match readPtrs bs 8 (le16 nl) with
    | none => none
    | some ptrs =>
      match readGlyphsFrom bs 0 ptrs with
      | none => none
      | some gs => some ⟨le32 rl, le16 nl, le16 ll, gs⟩
  | _, _, _ => none

/-! ## Pack/unpack inverse for the bitmap bit layout -/

/-- The abstract 8-bit MSB-first packer: bit `7 - k` of the result is
`f k`. -/
def packFun (f : Nat → Bool) : Nat :=
  (List.range 8).foldl (fun acc k =>
    if f k then acc ||| (1 <<< (7 - k)) else acc) 0

/-! ## Bitmap pack/unpack inverse at the glyph level -/

/-- Validity of a glyph pixel grid: nonzero byte-range dimensions and a
well-formed `height × width` row matrix. -/
def glyphOk (g : Glyph) : Prop :=
  0 < g.width ∧ g.width < 256 ∧ 0 < g.height ∧ g.height < 256 ∧
  g.rows.length = g.height ∧ ∀ row ∈ g.rows, row.length = g.width

/-! ## Font layout walk -/

/-- Validity of one builder slot datum `(width, height, bitmap)`:
byte-range dimensions, empty bitmap for an empty slot, and the exact
packed size for a non-empty one. -/
def dataOk (d : Nat × Nat × List Nat) : Prop :=
  d.1 < 256 ∧ d.2.1 < 256 ∧
  ((d.1 = 0 ∨ d.2.1 = 0) → d.2.2 = []) ∧
  (¬(d.1 = 0 ∨ d.2.1 = 0) → d.2.2.length = d.2.1 * rowBytesOf d.1)

/-- The indexed glyphs the parser's character loop extracts back from
the builder's slot data. -/
def glyphsOfDatas (i : Nat) : List (Nat × Nat × List Nat) → List (Nat × Glyph)
  | [] => []
  | d :: rest =>
    if d.1 = 0 ∨ d.2.1 = 0 then glyphsOfDatas (i + 1) rest
    else (i, create_image d.1 d.2.1 d.2.2) :: glyphsOfDatas (i + 1) rest

/-- The bytes the builder will write back for a decoded chunk: the chunk
itself when the decode succeeded, nothing for the empty-string
substitute. -/
def texEncOf (c : List Nat) : List Nat :=
  match mapOpt win1255DecodeByte c with
  | some _ => c
  | none => []

/-! ## Claims C2, C4, C5 -/

instance (g : Glyph) : Decidable (glyphOk g) := by
  unfold glyphOk
  infer_instance

instance (r : MsgRecord) : Decidable (msgFieldsOk r) := by
  unfold msgFieldsOk
  infer_instance

instance (t : List Nat) : Decidable (asciiText t) := by
  unfold asciiText
  infer_instance

/-- The one-pixel glyph used in the concrete font instances. -/
def c2glyph : Glyph := ⟨1, 1, [[true]]⟩

/-- A well-formed one-glyph font whose reserved field is 0 (not 0x87). -/
def c2F0 : List Nat := [0, 0, 0, 0, 1, 0, 7, 0, 8, 0, 1, 1, 128]

/-- The same font as rebuilt by the builder: reserved forced to 0x87. -/
def c2F1 : List Nat := [135, 0, 0, 0, 1, 0, 7, 0, 8, 0, 1, 1, 128]

/-- A font whose single glyph declares an 8×2 bitmap (2 bytes) but whose
file ends after 1 bitmap byte. -/
def c5F2 : List Nat := [0, 0, 0, 0, 1, 0, 12, 0, 8, 0, 8, 2, 255]

/-- A message table whose single record points its text at the very end
of the file: no text bytes follow the record table. -/
def c5X1 : List Nat :=
  [15, 0] ++ pack32 5010 ++ pack16 17 ++ pack16 338 ++ pack16 1 ++
  ([0, 0, 0, 0, 0] ++ pack16 21 ++ [0, 0, 0, 0])

/-- A one-record message table whose text is the single byte `0x80`. -/
def c4X0 : List Nat :=
  [15, 0] ++ pack32 5010 ++ pack16 17 ++ pack16 338 ++ pack16 1 ++
  ([0, 0, 0, 0, 0] ++ pack16 21 ++ [0, 0, 0, 0]) ++ [0x80, 0]

/-- The file built from the single record `c7recA`. -/
def c4M1 : List Nat :=
  [15, 0, 146, 19, 0, 0, 17, 0, 82, 1, 1, 0, 1, 2, 3, 4, 5, 21, 0, 6, 7, 8, 9, 65, 0]

/-! ## Theorems -/

/-! ## Shared lemmas -/

theorem mapOpt_nil (f : α → Option β) : mapOpt f [] = some [] := rfl

theorem mapOpt_cons (f : α → Option β) (a : α) (l : List α) :
    mapOpt f (a :: l) =
      match f a with
      | none => none
      | some b => (mapOpt f l).map (fun t => b :: t) := rfl

theorem mapOpt_length {f : α → Option β} :
    ∀ {l : List α} {l' : List β}, mapOpt f l = some l' → l'.length = l.length
  | [], _, h => by simp [mapOpt] at h; simp [← h]
  | a :: l, l', h => by
    rw [mapOpt_cons] at h
    cases ha : f a with
    | none => rw [ha] at h; exact absurd h (by simp)
    | some b =>
      rw [ha] at h
      cases hl : mapOpt f l with
      | none => rw [hl] at h; exact absurd h (by simp)
      | some t =>
        rw [hl] at h
        simp only [Option.map_some', Option.some.injEq] at h
        subst h
        simp [mapOpt_length hl]

theorem mapOpt_eq_some_of_forall {f : α → Option β} {g : α → β} :
    ∀ {l : List α}, (∀ a ∈ l, f a = some (g a)) → mapOpt f l = some (l.map g)
  | [], _ => rfl
  | a :: l, h => by
    rw [mapOpt_cons, h a (by simp),
        mapOpt_eq_some_of_forall (fun x hx => h x (by simp [hx]))]
    rfl

theorem le16_pack16 {v : Nat} (h : v < 65536) : le16 (pack16 v) = v := by
  simp [le16, pack16]; omega

theorem takeWhile_append_zero {e rest : List Nat} (he : (0 : Nat) ∉ e) :
    (e ++ 0 :: rest).takeWhile (fun b => b ≠ 0) = e := by
  induction e with
  | nil => simp [List.takeWhile]
  | cons x xs ih =>
    simp only [List.mem_cons, not_or] at he
    rw [List.cons_append, List.takeWhile_cons]
    simp only [ne_eq, decide_not]
    rw [decide_eq_false (by exact fun hx => he.1 hx.symm : ¬x = 0)]
    have ih' := ih he.2
    simp only [ne_eq, decide_not] at ih'
    simp [ih']

theorem sum_map_const {l : List α} {f : α → Nat} {c : Nat} (h : ∀ a ∈ l, f a = c) :
    (l.map f).sum = c * l.length := by
  induction l with
  | nil => simp
  | cons a t ih =>
    simp only [List.map_cons, List.sum_cons, List.length_cons,
      h a (by simp), ih (fun x hx => h x (by simp [hx]))]
    ring

theorem msgOffsetsFrom_length :
    ∀ (cur : Nat) (l : List (List Nat)), (msgOffsetsFrom cur l).length = l.length
  | _, [] => rfl
  | cur, e :: rest => by
    simp [msgOffsetsFrom, msgOffsetsFrom_length (cur + (e.length + 1)) rest]

theorem msgOffsetsFrom_getD :
    ∀ (l : List (List Nat)) (cur i : Nat), i < l.length →
      (msgOffsetsFrom cur l).getD i 0 =
        cur + ((l.take i).map (fun e => e.length + 1)).sum - 2
  | [], _, i, h => absurd h (by simp)
  | e :: rest, cur, 0, _ => by simp [msgOffsetsFrom]
  | e :: rest, cur, i + 1, h => by
    have ih := msgOffsetsFrom_getD rest (cur + (e.length + 1)) i (by simpa using h)
    simp only [msgOffsetsFrom, List.getD_cons_succ, List.take_succ_cons,
      List.map_cons, List.sum_cons]
    rw [ih]
    omega

theorem msgRecordBytes_length (r : MsgRecord) (off : Nat) :
    (msgRecordBytes r off).length = 11 := by
  simp [msgRecordBytes, pack16]

/-- C1 (amended): each per-message record entry is a fixed ELEVEN-byte
record (5 category bytes + u16 textOffset + 4 cross-reference bytes = 11
bytes, and the parser consumes exactly 11 bytes per record), and the
builder computes `textOffset[i] = 2 + 4 + 2 + 2 + 2 + count*11 +
Σ(encoded_len(text[j])+1 for j<i) − 2`. -/
theorem msg_record_size_and_offset_formula :
    (∀ (r : MsgRecord) (off : Nat), (msgRecordBytes r off).length = 11) ∧
    (∀ (bs : List Nat) (pos : Nat),
      (readMsgHeader bs pos).isSome ↔ pos + 11 ≤ bs.length) ∧
    ∀ (recs : List MsgRecord) (encs : List (List Nat)),
      msgEncodeAll recs = some encs → ∀ i, i < recs.length →
        (msgOffsets encs).getD i 0 =
          2 + 4 + 2 + 2 + 2 + recs.length * 11 +
            ((encs.take i).map (fun e => e.length + 1)).sum - 2 := by
  refine ⟨msgRecordBytes_length, ?_, ?_⟩
  · intro bs pos
    unfold readMsgHeader readExact
    by_cases h : pos + 11 ≤ bs.length <;> simp [h]
  · intro recs encs he i hi
    have hlen : encs.length = recs.length := mapOpt_length he
    rw [msgOffsets, msgOffsetsFrom_getD encs _ i (by omega), hlen]

/-- Witness for `msg_record_size_and_offset_formula` at a one-record
input with empty text: the stored offset is `12 + 11 − 2 = 21`. -/
theorem msg_record_size_and_offset_formula_witness :
    (msgRecordBytes msgRec0 21).length = 11 ∧
    ((readMsgHeader (List.replicate 11 0) 0).isSome ↔ 0 + 11 ≤ (List.replicate 11 (0 : Nat)).length) ∧
    (msgOffsets [[]]).getD 0 0 =
      2 + 4 + 2 + 2 + 2 + [msgRec0].length * 11 +
        ((([[]] : List (List Nat)).take 0).map (fun e => e.length + 1)).sum - 2 :=
  ⟨msg_record_size_and_offset_formula.1 msgRec0 21,
   msg_record_size_and_offset_formula.2.1 (List.replicate 11 0) 0,
   msg_record_size_and_offset_formula.2.2 [msgRec0] [[]] (by decide) 0 (by decide)⟩

/-- C1 counterexample: the claim's 10-byte-record variant of the formula
fails — for one record with empty text the builder stores offset 21
(= 12 + 1*11 − 2), not 20 (= 12 + 1*10 − 2), and a record entry is 11
bytes, not 10. -/
theorem msg_offset_formula_counterexample :
    msgEncodeAll [msgRec0] = some [[]] ∧
    msgOffsets [[]] = [21] ∧
    2 + 4 + 2 + 2 + 2 + 1 * 10 +
      ((([[]] : List (List Nat)).take 0).map (fun e => e.length + 1)).sum - 2 = 20 ∧
    (21 : Nat) ≠ 20 ∧
    (msgRecordBytes msgRec0 21).length = 11 ∧ (11 : Nat) ≠ 10 := by decide

/-- C3 (amended): the `dataSize` field written by the builder equals
2 (lastId) + 2 (count) + the byte length of the record table + the byte
length of all encoded texts with their null terminators — i.e. the
record-table-plus-texts total PLUS four bytes for the lastId and count
header fields. -/
theorem msg_dataSize_formula :
    ∀ (recs : List MsgRecord) (encs : List (List Nat)),
      msgEncodeAll recs = some encs →
      msgHeaderSize recs.length + msgTextSize encs =
        2 + 2 +
        (((recs.zip (msgOffsets encs)).map
            (fun p => msgRecordBytes p.1 p.2)).flatten).length +
        ((encs.map (fun e => e ++ [0])).flatten).length := by
  intro recs encs he
  have hlen : encs.length = recs.length := mapOpt_length he
  have hoff : (msgOffsets encs).length = recs.length := by
    rw [msgOffsets, msgOffsetsFrom_length, hlen]
  have hzip : (recs.zip (msgOffsets encs)).length = recs.length := by
    rw [List.length_zip, hoff, Nat.min_self]
  have htab :
      (((recs.zip (msgOffsets encs)).map
          (fun p => msgRecordBytes p.1 p.2)).flatten).length =
        11 * recs.length := by
    rw [List.length_flatten, List.map_map]
    rw [sum_map_const (c := 11) (by intro a _; exact msgRecordBytes_length a.1 a.2), hzip]
  have htxt :
      ((encs.map (fun e => e ++ [0])).flatten).length = msgTextSize encs := by
    rw [List.length_flatten, List.map_map, msgTextSize]
    congr 1
    exact List.map_congr_left (by intro e _; simp)
  rw [htab, htxt, msgHeaderSize]
  omega

/-- Witness for `msg_dataSize_formula` at the empty record collection. -/
theorem msg_dataSize_formula_witness :
    msgHeaderSize ([] : List MsgRecord).length + msgTextSize [] =
      2 + 2 +
      ((([] : List MsgRecord).zip (msgOffsets [])).map
          (fun p => msgRecordBytes p.1 p.2)).flatten.length +
      (([] : List (List Nat)).map (fun e => e ++ [0])).flatten.length :=
  msg_dataSize_formula [] [] (by decide)

/-- C3 counterexample: for an empty record collection the builder writes
`dataSize = 4` (the lastId and count fields), while the record table and
text section are both empty — the claim's "record table + texts +
terminators (and nothing more)" predicts 0. -/
theorem msg_dataSize_counterexample :
    create_msg_file [] = some [15, 0, 146, 19, 0, 0, 4, 0, 82, 1, 0, 0] ∧
    msgHeaderSize 0 + msgTextSize [] = 4 ∧
    ((([] : List MsgRecord).zip (msgOffsets [])).map
        (fun p => msgRecordBytes p.1 p.2)).flatten.length +
      (([] : List (List Nat)).map (fun e => e ++ [0])).flatten.length = 0 ∧
    (4 : Nat) ≠ 0 := by decide

/-- C9: the builder always writes `sciVersion = 5010` and `lastId = 338`,
whatever the records hold: the output decomposes as the fixed prefix
`[0x0F, 0x00] ++ pack32 5010 ++ pack16 dataSize ++ pack16 338 ++
pack16 count ++ rest`, with `pack32 5010 = [146, 19, 0, 0]` and
`pack16 338 = [82, 1]`. -/
theorem msg_constant_header_fields :
    pack32 5010 = [146, 19, 0, 0] ∧ pack16 338 = [82, 1] ∧
    ∀ (recs : List MsgRecord) (out : List Nat),
      create_msg_file recs = some out →
      ∃ ds rest, out = [0x0F, 0x00] ++ pack32 5010 ++ pack16 ds ++
        pack16 338 ++ pack16 recs.length ++ rest := by
  refine ⟨by decide, by decide, ?_⟩
  intro recs out h
  unfold create_msg_file at h
  cases he : msgEncodeAll recs with
  | none => rw [he] at h; exact absurd h (by simp)
  | some encs =>
    rw [he] at h
    simp only [Option.some.injEq] at h
    exact ⟨_, _, h.symm⟩

/-- Witness for `msg_constant_header_fields` at the empty record
collection. -/
theorem msg_constant_header_fields_witness :
    ∃ ds rest, ([15, 0, 146, 19, 0, 0, 4, 0, 82, 1, 0, 0] : List Nat) =
      [0x0F, 0x00] ++ pack32 5010 ++ pack16 ds ++ pack16 338 ++
      pack16 ([] : List MsgRecord).length ++ rest :=
  msg_constant_header_fields.2.2 [] _ (by decide)

/-- C7: for the 2-record table with texts `"A"` and `"BB"` the computed
offsets are 32 and 34, the parser reads those offsets back from the
file, and reading a null-terminated string at absolute position
`2 + textOffset[i]` yields exactly the i-th text followed by one null
byte. -/
theorem msg_two_record_offsets :
    msgOffsets [[65], [66, 66]] = [32, 34] ∧
    (create_msg_file [c7recA, c7recBB]).isSome = true ∧
    (parse_msg_file c7out).map (fun l => l.map (fun r => r.textOffset)) =
      some [32, 34] ∧
    readCString c7out (2 + 32) = [65] ∧ c7out.getD (2 + 32 + 1) 1 = 0 ∧
    readCString c7out (2 + 34) = [66, 66] ∧ c7out.getD (2 + 34 + 2) 1 = 0 := by
  decide

theorem mapOpt_isSome_of_forall {f : α → Option β} :
    ∀ {l : List α}, (∀ a ∈ l, (f a).isSome) → (mapOpt f l).isSome
  | [], _ => rfl
  | a :: l, h => by
    rw [mapOpt_cons]
    cases ha : f a with
    | none => exact absurd (h a (by simp)) (by simp [ha])
    | some b =>
      have tail :=
        mapOpt_isSome_of_forall (l := l) (fun x hx => h x (List.mem_cons_of_mem a hx))
      cases hl : mapOpt f l with
      | none => rw [hl] at tail; exact absurd tail (by simp)
      | some t => simp

theorem mapOpt_eq_none_of_mem {f : α → Option β} :
    ∀ {l : List α} {a : α}, a ∈ l → f a = none → mapOpt f l = none
  | x :: t, a, hmem, hfa => by
    rw [mapOpt_cons]
    rcases List.mem_cons.mp hmem with h | h
    · subst h; rw [hfa]
    · cases hx : f x with
      | none => rfl
      | some b => rw [mapOpt_eq_none_of_mem h hfa]; rfl

theorem splitNull_ne_nil : ∀ (l : List Nat), splitNull l ≠ []
  | [] => by simp [splitNull]
  | b :: t => by
    simp only [splitNull]
    by_cases hb : b = 0
    · simp [hb]
    · simp only [hb, if_false]
      cases h : splitNull t <;> simp

theorem splitNull_cons_ne {b : Nat} (hb : b ≠ 0) (x : List Nat) :
    splitNull (b :: x) =
      (b :: (splitNull x).headD []) :: (splitNull x).tail := by
  cases h : splitNull x with
  | nil => exact absurd h (splitNull_ne_nil x)
  | cons sh sr =>
    simp only [splitNull]
    rw [if_neg hb, h]
    rfl

theorem splitNull_noNull : ∀ {l : List Nat}, (0 : Nat) ∉ l → splitNull l = [l]
  | [], _ => rfl
  | b :: t, h => by
    simp only [List.mem_cons, not_or] at h
    rw [splitNull_cons_ne (fun hb => h.1 hb.symm), splitNull_noNull h.2]
    rfl

theorem splitNull_append_noNull :
    ∀ (data tail : List Nat), (0 : Nat) ∉ tail →
      splitNull (data ++ tail) =
        (splitNull data).dropLast ++ [(splitNull data).getLastD [] ++ tail] := by
  intro data tail h
  induction data with
  | nil => simp [splitNull, splitNull_noNull h]
  | cons b t ih =>
    have hne := splitNull_ne_nil t
    rw [List.cons_append]
    by_cases hb : b = 0
    · subst hb
      rw [show splitNull ((0 : Nat) :: (t ++ tail)) = [] :: splitNull (t ++ tail) from rfl,
          show splitNull ((0 : Nat) :: t) = [] :: splitNull t from rfl, ih]
      cases hst : splitNull t with
      | nil => exact absurd hst hne
      | cons sh sr => simp [List.getLastD_eq_getLast?]
    · rw [splitNull_cons_ne hb, splitNull_cons_ne hb, ih]
      cases hst : splitNull t with
      | nil => exact absurd hst hne
      | cons sh sr =>
        cases sr with
        | nil => simp
        | cons c r2 => simp [List.getLastD_eq_getLast?]

/-! ## Claims C6, C8, C10 — string resource codec -/

/-- C6 (amended): the string-resource builders (`convert_tsv_to_tex` and
the translation writer) encode each string with windows-1255 ONLY —
there is no UTF-8 or Latin-1 fallback.  A collection whose every
character is windows-1255-encodable builds successfully, and a single
unencodable character anywhere makes the whole conversion fail (the
script exits); the translation writer uses the same bare encoding. -/
theorem tex_encode_no_fallback :
    (∀ (ss : List (List Nat)), (∀ s ∈ ss, ∀ c ∈ s, (win1255EncodeChar c).isSome) →
      (convert_tsv_to_tex ss).isSome) ∧
    (∀ (ss : List (List Nat)) (s : List Nat) (c : Nat), s ∈ ss → c ∈ s →
      win1255EncodeChar c = none → convert_tsv_to_tex ss = none) ∧
    (∀ (s : List Nat) (c : Nat), c ∈ s → win1255EncodeChar c = none →
      translateEncodeString s = none) := by
  refine ⟨?_, ?_, ?_⟩
  · intro ss h
    unfold convert_tsv_to_tex
    have : (mapOpt (fun s => mapOpt win1255EncodeChar s) ss).isSome :=
      mapOpt_isSome_of_forall (fun s hs =>
        mapOpt_isSome_of_forall (fun c hc => h s hs c hc))
    cases he : mapOpt (fun s => mapOpt win1255EncodeChar s) ss with
    | none => rw [he] at this; exact absurd this (by simp)
    | some encs => simp
  · intro ss s c hs hc hfail
    unfold convert_tsv_to_tex
    rw [mapOpt_eq_none_of_mem hs (mapOpt_eq_none_of_mem hc hfail)]
    rfl
  · intro s c hc hfail
    exact mapOpt_eq_none_of_mem hc hfail

/-- Witness for `tex_encode_no_fallback`: `"A"` builds; adding the
windows-1255-unencodable `U+03B1` anywhere fails. -/
theorem tex_encode_no_fallback_witness :
    (convert_tsv_to_tex [[65]]).isSome ∧
    convert_tsv_to_tex [[65], [945]] = none ∧
    translateEncodeString [945] = none :=
  ⟨tex_encode_no_fallback.1 [[65]] (by decide),
   tex_encode_no_fallback.2.1 [[65], [945]] [945] 945 (by decide) (by decide) (by decide),
   tex_encode_no_fallback.2.2 [945] 945 (by decide) (by decide)⟩

/-- C6 counterexample: the claim's codepage→UTF-8→Latin-1 fallback does
not exist — a single string holding `U+03B1` (encodable by both UTF-8
and, were it below 256, Latin-1's criterion never reached) makes the
string-resource build fail instead of falling back. -/
theorem tex_encode_fallback_counterexample :
    convert_tsv_to_tex [[945]] = none ∧
    translateEncodeString [945] = none ∧
    (mapOpt utf8EncodeChar [945]).isSome = true := by decide

/-- C8: decode totality.  Any byte sequence (every element < 256) fed to
the message-table text decoder produces some string (the CP862 table is
total, so the chain's first stage already succeeds), and the
string-resource chunk decoder always produces a string: the
windows-1255 decode result when it succeeds, the empty string when it
fails — never an unhandled failure. -/
theorem decode_chain_total :
    ∀ (bs : List Nat), (∀ b ∈ bs, b < 256) →
      (msgDecodeText bs).isSome ∧
      (mapOpt win1255DecodeByte bs = none → texDecodeChunk bs = []) ∧
      (∀ s, mapOpt win1255DecodeByte bs = some s → texDecodeChunk bs = s) := by
  intro bs h
  refine ⟨?_, ?_, ?_⟩
  · have : (mapOpt cp862DecodeByte bs).isSome :=
      mapOpt_isSome_of_forall (fun b hb => by
        simp only [cp862DecodeByte]
        rcases Nat.lt_or_ge b 128 with hlt | hge
        · simp [hlt]
        · simp [Nat.not_lt.mpr hge, h b hb])
    unfold msgDecodeText
    cases he : mapOpt cp862DecodeByte bs with
    | none => rw [he] at this; exact absurd this (by simp)
    | some s => simp
  · intro hnone; unfold texDecodeChunk; rw [hnone]
  · intro s hsome; unfold texDecodeChunk; rw [hsome]

/-- Witness for `decode_chain_total` at `[65, 251]` (byte `0xFB` is
undecodable in windows-1255, decodable in CP862). -/
theorem decode_chain_total_witness :
    (msgDecodeText [65, 251]).isSome ∧
    (mapOpt win1255DecodeByte [65, 251] = none → texDecodeChunk [65, 251] = []) ∧
    (∀ s, mapOpt win1255DecodeByte [65, 251] = some s → texDecodeChunk [65, 251] = s) :=
  decode_chain_total [65, 251] (by decide)

/-- C10: the string-resource parser never returns the bytes after the
last null terminator: appending any null-free tail to a resource leaves
the parse result unchanged (in particular, with no null at all nothing
is returned). -/
theorem tex_drops_unterminated_tail :
    ∀ (data tail : List Nat), (0 : Nat) ∉ tail →
      read_tex_strings ([0x83, 0x00] ++ data ++ tail) =
        read_tex_strings ([0x83, 0x00] ++ data) := by
  intro data tail h
  unfold read_tex_strings
  have h2 : ([0x83, 0x00] ++ data ++ tail).drop 2 = data ++ tail := by
    rw [List.append_assoc]; rfl
  have h3 : ([0x83, 0x00] ++ data).drop 2 = data := rfl
  rw [h2, h3, splitNull_append_noNull data tail h, List.dropLast_concat]

/-- Witness for `tex_drops_unterminated_tail`: the resource
`83 00 41 00 42` parses identically to `83 00 41 00` — the trailing
unterminated `42` is dropped. -/
theorem tex_drops_unterminated_tail_witness :
    read_tex_strings ([0x83, 0x00] ++ [65, 0] ++ [66]) =
      read_tex_strings ([0x83, 0x00] ++ [65, 0]) :=
  tex_drops_unterminated_tail [65, 0] [66] (by decide)

theorem mapOpt_cons_bind (f : α → Option β) (a : α) (l : List α) :
    mapOpt f (a :: l) = (f a).bind (fun b => (mapOpt f l).map (fun t => b :: t)) := by
  rw [mapOpt_cons]
  cases f a <;> rfl

theorem msgEncodeText_ascii {t : List Nat} (h : ∀ c ∈ t, c < 128) :
    msgEncodeText t = some t := by
  have hmap : mapOpt win1255EncodeChar t = some (t.map id) :=
    mapOpt_eq_some_of_forall (fun c hc => by simp [win1255EncodeChar, h c hc])
  unfold msgEncodeText
  rw [hmap]
  simp

theorem msgDecodeText_ascii {t : List Nat} (h : ∀ c ∈ t, c < 128) :
    msgDecodeText t = some t := by
  have hmap : mapOpt cp862DecodeByte t = some (t.map id) :=
    mapOpt_eq_some_of_forall (fun c hc => by simp [cp862DecodeByte, h c hc])
  unfold msgDecodeText
  rw [hmap]
  simp

theorem msgOffsetsFrom_mem_le :
    ∀ (l : List (List Nat)) (cur x : Nat), 2 ≤ cur →
      x ∈ msgOffsetsFrom cur l →
      x + 2 ≤ cur + (l.map (fun e => e.length + 1)).sum
  | [], _, _, _, hx => absurd hx (by simp [msgOffsetsFrom])
  | e :: rest, cur, x, hcur, hx => by
    simp only [msgOffsetsFrom, List.mem_cons] at hx
    rcases hx with h | h
    · subst h; simp; omega
    · have := msgOffsetsFrom_mem_le rest (cur + (e.length + 1)) x (by omega) h
      simp only [List.map_cons, List.sum_cons]
      omega

theorem readMsgHeaders_table :
    ∀ (recs : List MsgRecord) (offs : List Nat) (pre suffix bs : List Nat),
      bs = pre ++ (((recs.zip offs).map
        (fun p => msgRecordBytes p.1 p.2)).flatten ++ suffix) →
      offs.length = recs.length →
      (∀ r ∈ recs, msgFieldsOk r) →
      (∀ o ∈ offs, o < 65536) →
      readMsgHeaders bs pre.length recs.length =
        some ((recs.zip offs).map hdrOf)
  | [], offs, pre, suffix, bs, _, _, _, _ => by simp [readMsgHeaders]
  | r :: rs, offs, pre, suffix, bs, hbs, hlen, hf, ho => by
    cases offs with
    | nil => simp at hlen
    | cons o os =>
      have hblock : (msgRecordBytes r o).length = 11 := msgRecordBytes_length r o
      have hbs' : bs = (pre ++ msgRecordBytes r o) ++
          (((rs.zip os).map (fun p => msgRecordBytes p.1 p.2)).flatten ++ suffix) := by
        rw [hbs]; simp [List.append_assoc]
      have hre : readExact bs pre.length 11 = some (msgRecordBytes r o) := by
        unfold readExact
        rw [if_pos (by rw [hbs']; simp [List.length_append]; omega)]
        rw [hbs, show pre ++ ((((r :: rs).zip (o :: os)).map
              (fun p => msgRecordBytes p.1 p.2)).flatten ++ suffix) =
            pre ++ (msgRecordBytes r o ++
              (((rs.zip os).map (fun p => msgRecordBytes p.1 p.2)).flatten ++ suffix))
          from by simp [List.append_assoc]]
        rw [List.drop_left, ← hblock, List.take_left]
      obtain ⟨h1, h2, h3, h4, h5, h6, h7, h8, h9⟩ := hf r (by simp)
      have hor := ho o (by simp)
      have hhd : readMsgHeader bs pre.length = some (hdrOf (r, o)) := by
        unfold readMsgHeader
        rw [hre]
        simp only [msgRecordBytes, pack16, List.cons_append, List.nil_append,
          List.getD_cons_zero, List.getD_cons_succ, Option.some.injEq, hdrOf]
        have e1 : r.noun % 256 = r.noun := Nat.mod_eq_of_lt h1
        have e2 : r.verb % 256 = r.verb := Nat.mod_eq_of_lt h2
        have e3 : r.case_ % 256 = r.case_ := Nat.mod_eq_of_lt h3
        have e4 : r.sequence % 256 = r.sequence := Nat.mod_eq_of_lt h4
        have e5 : r.talker % 256 = r.talker := Nat.mod_eq_of_lt h5
        have e6 : r.refNoun % 256 = r.refNoun := Nat.mod_eq_of_lt h6
        have e7 : r.refVerb % 256 = r.refVerb := Nat.mod_eq_of_lt h7
        have e8 : r.refCase % 256 = r.refCase := Nat.mod_eq_of_lt h8
        have e9 : r.refSequence % 256 = r.refSequence := Nat.mod_eq_of_lt h9
        have e10 : o % 256 + 256 * (o / 256 % 256) = o := by omega
        simp only [e1, e2, e3, e4, e5, e6, e7, e8, e9, e10]
      have ih := readMsgHeaders_table rs os (pre ++ msgRecordBytes r o) suffix bs
        hbs'
        (by simpa using hlen)
        (fun x hx => hf x (by simp [hx]))
        (fun x hx => ho x (by simp [hx]))
      rw [List.length_cons]
      simp only [readMsgHeaders, hhd]
      rw [show pre.length + 11 = (pre ++ msgRecordBytes r o).length from by
        simp [List.length_append, hblock]]
      rw [ih]
      simp

theorem parse_texts_loop :
    ∀ (recs : List MsgRecord) (pre bs : List Nat),
      2 ≤ pre.length →
      bs = pre ++ (recs.map (fun r => r.text ++ [0])).flatten →
      (∀ r ∈ recs, (0 : Nat) ∉ r.text ∧ msgDecodeText r.text = some r.text) →
      mapOpt (fun h => (msgDecodeText (readCString bs (2 + h.textOffset))).map
          (fun t => { h with text := t }))
        ((recs.zip (msgOffsetsFrom pre.length (recs.map (fun r => r.text)))).map hdrOf) =
      some ((recs.zip (msgOffsetsFrom pre.length (recs.map (fun r => r.text)))).map recOf)
  | [], pre, bs, _, _, _ => by simp [msgOffsetsFrom, mapOpt]
  | r :: rs, pre, bs, hpre, hbs, hrec => by
    have hdrop : bs.drop pre.length =
        r.text ++ (0 :: (rs.map (fun x => x.text ++ [0])).flatten) := by
      rw [hbs, List.drop_left]; simp
    have hcstr : readCString bs (2 + (pre.length - 2)) = r.text := by
      rw [readCString, show 2 + (pre.length - 2) = pre.length from by omega, hdrop]
      exact takeWhile_append_zero (hrec r (by simp)).1
    have ih := parse_texts_loop rs (pre ++ (r.text ++ [0])) bs
      (by simp [List.length_append]; omega)
      (by rw [hbs]; simp [List.append_assoc])
      (fun x hx => hrec x (by simp [hx]))
    have hplen : (pre ++ (r.text ++ [0])).length = pre.length + (r.text.length + 1) := by
      simp [List.length_append]
    rw [hplen] at ih
    simp only [List.map_cons, msgOffsetsFrom, List.zip_cons_cons, mapOpt_cons_bind]
    simp only [show (hdrOf (r, pre.length - 2)).textOffset = pre.length - 2 from rfl]
    rw [hcstr, (hrec r (by simp)).2]
    simp only [Option.map_some', Option.some_bind]
    rw [ih]
    simp only [Option.map_some', Option.some.injEq]
    rfl

/-- The builder ignores the `textOffset` column of its input records:
overwriting it with recomputed offsets changes nothing. -/
theorem create_msg_file_map_offsets (l : List (MsgRecord × Nat)) :
    create_msg_file (l.map recOf) = create_msg_file (l.map (fun p => p.1)) := by
  have htext : msgEncodeAll (l.map recOf) = msgEncodeAll (l.map (fun p => p.1)) := by
    unfold msgEncodeAll
    induction l with
    | nil => rfl
    | cons p t ih =>
      rw [List.map_cons, List.map_cons, mapOpt_cons, mapOpt_cons,
        show (recOf p).text = p.1.text from rfl, ih]
  unfold create_msg_file
  rw [htext]
  cases he : msgEncodeAll (l.map (fun p => p.1)) with
  | none => rfl
  | some encs =>
    have hz : ∀ (offs : List Nat),
        ((l.map recOf).zip offs).map (fun p => msgRecordBytes p.1 p.2) =
          ((l.map (fun p => p.1)).zip offs).map (fun p => msgRecordBytes p.1 p.2) := by
      intro offs
      rw [List.zip_map_left, List.zip_map_left, List.map_map, List.map_map]
      exact List.map_congr_left (fun p _ => by simp [msgRecordBytes, recOf])
    simp only [List.length_map, hz]

/-- Parsing a file produced by the builder recovers the records with
their offsets recomputed (for in-range field values and nonzero-ASCII
texts). -/
theorem parse_create_msg (recs : List MsgRecord)
    (hf : ∀ r ∈ recs, msgFieldsOk r)
    (ht : ∀ r ∈ recs, asciiText r.text)
    (hn : recs.length < 65536)
    (hsz : 12 + recs.length * 11 +
      msgTextSize (recs.map (fun r => r.text)) ≤ 65537) :
    ∃ M, create_msg_file recs = some M ∧
      parse_msg_file M =
        some ((recs.zip (msgOffsets (recs.map (fun r => r.text)))).map recOf) := by
  have henc : msgEncodeAll recs = some (recs.map (fun r => r.text)) :=
    mapOpt_eq_some_of_forall (fun r hr =>
      msgEncodeText_ascii (fun c hc => (ht r hr c hc).2))
  set encs := recs.map (fun r => r.text) with hencs
  set n := recs.length with hnn
  set offs := msgOffsets encs with hoffs
  have hel : encs.length = n := by rw [hencs, hnn, List.length_map]
  have hoffl : offs.length = n := by
    rw [hoffs, msgOffsets, msgOffsetsFrom_length, hel]
  have hobnd : ∀ o ∈ offs, o < 65536 := by
    intro o hocc
    have h2 : (2 : Nat) ≤ 12 + encs.length * 11 := by omega
    have hle := msgOffsetsFrom_mem_le encs (12 + encs.length * 11) o h2 hocc
    rw [hel] at hle
    have : o + 2 ≤ 12 + n * 11 + msgTextSize encs := by
      rw [msgTextSize]; omega
    omega
  set T := ((recs.zip offs).map (fun p => msgRecordBytes p.1 p.2)).flatten with hT
  set X := (encs.map (fun e => e ++ [0])).flatten with hX
  set ds := msgHeaderSize n + msgTextSize encs with hds
  set M := [15, 0, 146, 19, 0, 0] ++ (pack16 ds ++ (pack16 338 ++ (pack16 n ++ (T ++ X))))
    with hM
  have hcreate : create_msg_file recs = some M := by
    unfold create_msg_file
    rw [henc]
    simp only [Option.some.injEq, hM]
    rw [show ([15, 0] : List Nat) ++ pack32 5010 = [15, 0, 146, 19, 0, 0] from by decide]
    simp [List.append_assoc, hds, hT, hX, hoffs, hnn, hencs]
  refine ⟨M, hcreate, ?_⟩
  have hr6 : readExact M 6 2 = some (pack16 ds) := by
    rw [hM]; unfold readExact
    rw [if_pos (by simp [pack16])]
    simp [pack16]
  have hr8 : readExact M 8 2 = some (pack16 338) := by
    rw [hM]; unfold readExact
    rw [if_pos (by simp [pack16])]
    simp [pack16]
  have hr10 : readExact M 10 2 = some (pack16 n) := by
    rw [hM]; unfold readExact
    rw [if_pos (by simp [pack16])]
    simp [pack16]
  have hhdrs : readMsgHeaders M 12 n = some ((recs.zip offs).map hdrOf) := by
    have htab := readMsgHeaders_table recs offs
      ([15, 0, 146, 19, 0, 0] ++ (pack16 ds ++ (pack16 338 ++ pack16 n))) X M
      (by rw [hM]; simp [List.append_assoc, hT])
      hoffl hf hobnd
    have hlen12 : ([15, 0, 146, 19, 0, 0] ++ (pack16 ds ++ (pack16 338 ++ pack16 n))).length
        = 12 := by simp [pack16]
    rw [hlen12, ← hnn] at htab
    exact htab
  have hTlen : T.length = 11 * n := by
    rw [hT, List.length_flatten, List.map_map]
    rw [sum_map_const (c := 11) (fun a _ => msgRecordBytes_length a.1 a.2)]
    rw [List.length_zip, hoffl, ← hnn, Nat.min_self]
  have htexts := parse_texts_loop recs
    ([15, 0, 146, 19, 0, 0] ++ (pack16 ds ++ (pack16 338 ++ (pack16 n ++ T)))) M
    (by simp [pack16])
    (by rw [hM, hX, hencs]
        simp [List.append_assoc, List.map_map, Function.comp_def])
    (fun r hr => ⟨fun h0 => absurd (ht r hr 0 h0).1 (by omega),
      msgDecodeText_ascii (fun c hc => (ht r hr c hc).2)⟩)
  have hlen12T : ([15, 0, 146, 19, 0, 0] ++ (pack16 ds ++ (pack16 338 ++ (pack16 n ++ T)))).length
      = 12 + n * 11 := by simp [pack16, List.length_append, hTlen]; omega
  rw [hlen12T] at htexts
  have hoffeq : msgOffsetsFrom (12 + n * 11) (recs.map (fun r => r.text)) = offs := by
    rw [hoffs, msgOffsets, ← hencs, hel]
  rw [hoffeq] at htexts
  unfold parse_msg_file
  rw [hr6, hr8, hr10]
  have hfin : (match readMsgHeaders M 12 (le16 (pack16 n)) with
      | none => none
      | some hs =>
        mapOpt (fun h => (msgDecodeText (readCString M (2 + h.textOffset))).map
          (fun t => { h with text := t })) hs) =
      some ((recs.zip offs).map recOf) := by
    rw [le16_pack16 hn, hhdrs]
    exact htexts
  exact hfin

theorem packRowByte_eq_packFun (row : List Bool) (byteIdx w : Nat) :
    packRowByte row byteIdx w =
      packFun (fun k =>
        decide (byteIdx * 8 + k < w) && row.getD (byteIdx * 8 + k) false) := by
  unfold packRowByte packFun
  apply List.foldl_ext
  intro acc k _
  by_cases h1 : byteIdx * 8 + k < w
  · by_cases h2 : row.getD (byteIdx * 8 + k) false
    · simp [h1, h2]
    · simp [h1, h2]
  · simp [h1]

theorem foldl_orBits_testBit (f : Nat → Bool) :
    ∀ (l : List Nat) (acc n : Nat),
      (l.foldl (fun acc k => if f k then acc ||| (1 <<< (7 - k)) else acc) acc).testBit n
        = (acc.testBit n || l.any (fun k => f k && (7 - k == n)))
  | [], acc, n => by simp
  | k :: t, acc, n => by
    simp only [List.foldl_cons, List.any_cons]
    rw [foldl_orBits_testBit f t _ n]
    by_cases hk : f k
    · rw [if_pos hk]
      rw [Nat.testBit_or]
      have hsh : ((1 : Nat) <<< (7 - k)).testBit n = (7 - k == n) := by
        rw [Nat.shiftLeft_eq, one_mul, Nat.testBit_two_pow]
        by_cases h : 7 - k = n <;> simp [h]
      rw [hsh, hk]
      simp [Bool.or_assoc, Bool.or_comm, Bool.or_left_comm]
    · rw [if_neg hk]
      have : f k = false := by simpa using hk
      simp [this]

theorem packFun_testBit (f : Nat → Bool) (n : Nat) :
    (packFun f).testBit n = (List.range 8).any (fun k => f k && (7 - k == n)) := by
  unfold packFun
  rw [foldl_orBits_testBit]
  simp

theorem packFun_testBit_eq (f : Nat → Bool) (b : Nat) (hb : b < 8) :
    (packFun f).testBit (7 - b) = f b := by
  rw [packFun_testBit]
  cases hfb : f b with
  | true =>
    apply List.any_eq_true.mpr
    exact ⟨b, by simp [List.mem_range, hb], by simp [hfb]⟩
  | false =>
    apply List.any_eq_false.mpr
    intro k hk
    simp only [List.mem_range] at hk
    by_cases hkb : k = b
    · subst hkb; simp [hfb]
    · have : 7 - k ≠ 7 - b := by omega
      simp [this]

theorem shiftRight_mod_two_eq_testBit (x m : Nat) :
    ((x >>> m) % 2 = 1) ↔ x.testBit m = true := by
  rw [Nat.testBit_to_div_mod, Nat.shiftRight_eq_div_pow]
  simp

theorem getD_append_left {l1 l2 : List Nat} {i d : Nat} (h : i < l1.length) :
    (l1 ++ l2).getD i d = l1.getD i d := by
  rw [List.getD_eq_getElem _ _ (by simp; omega), List.getD_eq_getElem _ _ h]
  exact List.getElem_append_left h

theorem getD_append_add {l1 l2 : List Nat} {m d : Nat} :
    (l1 ++ l2).getD (l1.length + m) d = l2.getD m d := by
  rw [List.getD_eq_getElem?_getD, List.getD_eq_getElem?_getD,
    List.getElem?_append_right (by omega)]
  simp

theorem read_png_to_bitmap_length {g : Glyph} (h : g.rows.length = g.height) :
    (read_png_to_bitmap g).length = g.height * rowBytesOf g.width := by
  unfold read_png_to_bitmap
  rw [List.length_flatten, List.map_map]
  rw [sum_map_const (c := rowBytesOf g.width) (by intro a _; simp), h]
  exact Nat.mul_comm _ _

theorem flatten_fixed_getD :
    ∀ (l : List (List Nat)) (L : Nat), (∀ x ∈ l, x.length = L) →
      ∀ (y k : Nat), y < l.length → k < L →
        l.flatten.getD (y * L + k) 0 = (l.getD y []).getD k 0
  | [], _, _, y, _, hy, _ => absurd hy (by simp)
  | a :: t, L, hL, 0, k, _, hk => by
    have ha : a.length = L := hL a (by simp)
    rw [List.flatten_cons]
    simp only [Nat.zero_mul, Nat.zero_add, List.getD_cons_zero]
    exact getD_append_left (by omega)
  | a :: t, L, hL, y + 1, k, hy, hk => by
    have ha : a.length = L := hL a (by simp)
    rw [List.flatten_cons]
    rw [show (y + 1) * L + k = a.length + (y * L + k) from by rw [ha]; ring]
    rw [getD_append_add, List.getD_cons_succ]
    exact flatten_fixed_getD t L (fun x hx => hL x (by simp [hx])) y k (by simpa using hy) hk

theorem getD_map_lt {α β : Type} (l : List α) (f : α → β) (i : Nat)
    (h : i < l.length) (d : α) (d' : β) :
    (l.map f).getD i d' = f (l.getD i d) := by
  rw [List.getD_eq_getElem _ _ (by simpa using h), List.getD_eq_getElem _ _ h]
  simp

theorem unpackPixel_pack {g : Glyph} (hok : glyphOk g) {x y : Nat}
    (hx : x < g.width) (hy : y < g.height) :
    unpackPixel g.width (read_png_to_bitmap g) x y = (g.rows.getD y []).getD x false := by
  obtain ⟨hw0, hw, hh0, hh, hrl, hrw⟩ := hok
  have hx8 : x / 8 < rowBytesOf g.width := by unfold rowBytesOf; omega
  have hbmlen : (read_png_to_bitmap g).length = g.height * rowBytesOf g.width :=
    read_png_to_bitmap_length hrl
  have hbi : y * rowBytesOf g.width + x / 8 < g.height * rowBytesOf g.width :=
    calc y * rowBytesOf g.width + x / 8
        < y * rowBytesOf g.width + rowBytesOf g.width := by omega
      _ = (y + 1) * rowBytesOf g.width := by ring
      _ ≤ g.height * rowBytesOf g.width := Nat.mul_le_mul_right _ hy
  have hgetD : (read_png_to_bitmap g).getD (y * rowBytesOf g.width + x / 8) 0 =
      packRowByte (g.rows.getD y []) (x / 8) g.width := by
    unfold read_png_to_bitmap
    rw [flatten_fixed_getD _ (rowBytesOf g.width)
      (by intro xx hxx
          simp only [List.mem_map] at hxx
          obtain ⟨row, _, hrow⟩ := hxx
          rw [← hrow]; simp)
      y (x / 8) (by rw [List.length_map, hrl]; exact hy) hx8]
    rw [getD_map_lt g.rows _ y (by rw [hrl]; exact hy) []]
    rw [getD_map_lt (List.range (rowBytesOf g.width)) _ (x / 8) (by simpa using hx8) 0]
    rw [List.getD_eq_getElem (List.range (rowBytesOf g.width)) 0 (by simpa using hx8)]
    simp
  unfold unpackPixel
  rw [if_pos (by rw [hbmlen]; exact hbi)]
  rw [hgetD, packRowByte_eq_packFun]
  set f := fun k => decide (x / 8 * 8 + k < g.width) &&
    (g.rows.getD y []).getD (x / 8 * 8 + k) false with hf
  have htb := packFun_testBit_eq f (x % 8) (Nat.mod_lt _ (by norm_num))
  have hxx : x / 8 * 8 + x % 8 = x := by omega
  rw [hf] at htb
  simp only [hxx] at htb
  have hiff := shiftRight_mod_two_eq_testBit (packFun f) (7 - x % 8)
  cases htbv : (packFun f).testBit (7 - x % 8) with
  | true =>
    rw [htbv] at htb
    rw [decide_eq_true (hiff.mpr htbv)]
    rw [decide_eq_true hx] at htb
    simpa using htb.symm
  | false =>
    rw [htbv] at htb
    rw [decide_eq_false (fun hP => by
      have hc := hiff.mp hP
      rw [htbv] at hc
      exact Bool.noConfusion hc)]
    rw [decide_eq_true hx] at htb
    simpa using htb.symm

theorem create_image_pack {g : Glyph} (hok : glyphOk g) :
    create_image g.width g.height (read_png_to_bitmap g) = g := by
  obtain ⟨hw0, hw, hh0, hh, hrl, hrw⟩ := hok
  unfold create_image
  cases g with
  | mk w h rows =>
    simp only [Glyph.mk.injEq, true_and]
    simp only at hrl hrw hw0 hw hh0 hh
    apply List.ext_getElem (by simp [hrl])
    intro y hy1 hy2
    simp only [List.getElem_map, List.getElem_range]
    have hy : y < h := by simpa using hy1
    apply List.ext_getElem (by simp [hrw rows[y] (by simp)])
    intro x hx1 hx2
    simp only [List.getElem_map, List.getElem_range]
    have hx : x < w := by simpa using hx1
    have hup := unpackPixel_pack (g := ⟨w, h, rows⟩) ⟨hw0, hw, hh0, hh, hrl, hrw⟩ hx hy
    simp only at hup
    rw [hup]
    rw [List.getD_eq_getElem rows [] hy2]
    rw [List.getD_eq_getElem (rows[y]) false hx2]

theorem fontPtrsFrom_length :
    ∀ (cur : Nat) (l : List (Nat × Nat × List Nat)), (fontPtrsFrom cur l).length = l.length
  | _, [] => rfl
  | cur, d :: rest => by
    simp [fontPtrsFrom, fontPtrsFrom_length (cur + (2 + d.2.2.length)) rest]

theorem fontPtrsFrom_mem_le :
    ∀ (l : List (Nat × Nat × List Nat)) (cur x : Nat), 2 ≤ cur →
      x ∈ fontPtrsFrom cur l →
      x + 2 ≤ cur + (l.map (fun d => 2 + d.2.2.length)).sum
  | [], _, _, _, hx => absurd hx (by simp [fontPtrsFrom])
  | d :: rest, cur, x, hcur, hx => by
    simp only [fontPtrsFrom, List.mem_cons] at hx
    rcases hx with h | h
    · subst h; simp; omega
    · have := fontPtrsFrom_mem_le rest (cur + (2 + d.2.2.length)) x (by omega) h
      simp only [List.map_cons, List.sum_cons]
      omega

theorem readPtrs_table :
    ∀ (ptrs : List Nat) (pre suffix bs : List Nat),
      bs = pre ++ ((ptrs.map pack16).flatten ++ suffix) →
      (∀ p ∈ ptrs, p < 65536) →
      readPtrs bs pre.length ptrs.length = some ptrs
  | [], pre, suffix, bs, _, _ => by simp [readPtrs]
  | p :: ps, pre, suffix, bs, hbs, hp => by
    have hbs' : bs = (pre ++ pack16 p) ++ ((ps.map pack16).flatten ++ suffix) := by
      rw [hbs]; simp [List.append_assoc]
    have hre : readExact bs pre.length 2 = some (pack16 p) := by
      unfold readExact
      rw [if_pos (by rw [hbs']
                     simp only [List.length_append, pack16, List.length_cons, List.length_nil]
                     omega)]
      rw [hbs, show pre ++ (((p :: ps).map pack16).flatten ++ suffix) =
          pre ++ (pack16 p ++ ((ps.map pack16).flatten ++ suffix)) from by
        simp [List.append_assoc]]
      rw [List.drop_left, show (2 : Nat) = (pack16 p).length from by simp [pack16],
        List.take_left]
    have ih := readPtrs_table ps (pre ++ pack16 p) suffix bs hbs'
      (fun x hx => hp x (by simp [hx]))
    rw [List.length_cons]
    simp only [readPtrs, hre]
    simp only [le16_pack16 (hp p (by simp))]
    rw [show pre.length + 2 = (pre ++ pack16 p).length from by simp [pack16]]
    rw [ih]
    rfl

theorem readGlyphsFrom_build :
    ∀ (datas : List (Nat × Nat × List Nat)) (i : Nat) (pre bs : List Nat),
      bs = pre ++ (datas.map glyphPayload).flatten →
      2 ≤ pre.length →
      (∀ d ∈ datas, dataOk d) →
      readGlyphsFrom bs i (fontPtrsFrom pre.length datas) =
        some (glyphsOfDatas i datas)
  | [], i, pre, bs, _, _, _ => by simp [fontPtrsFrom, glyphsOfDatas, readGlyphsFrom]
  | d :: rest, i, pre, bs, hbs, hpre, hok => by
    obtain ⟨hw, hh, hemp, hfull⟩ := hok d (by simp)
    have hbs' : bs = (pre ++ glyphPayload d) ++ (rest.map glyphPayload).flatten := by
      rw [hbs]; simp [List.append_assoc]
    have hdrop : bs.drop pre.length =
        d.1 % 256 :: d.2.1 % 256 :: (d.2.2 ++ (rest.map glyphPayload).flatten) := by
      rw [hbs, List.drop_left]
      simp [glyphPayload]
    have hlen : pre.length + 2 ≤ bs.length := by
      rw [hbs']
      simp only [List.length_append, glyphPayload, List.cons_append, List.nil_append,
        List.length_cons]
      omega
    have hrw : readExact bs pre.length 1 = some [d.1 % 256] := by
      unfold readExact
      rw [if_pos (by omega), hdrop]
      rfl
    have hrh : readExact bs (pre.length + 1) 1 = some [d.2.1 % 256] := by
      unfold readExact
      rw [if_pos (by omega)]
      rw [show bs.drop (pre.length + 1) =
          d.2.1 % 256 :: (d.2.2 ++ (rest.map glyphPayload).flatten) from by
        rw [← List.tail_drop, hdrop]; rfl]
      rfl
    have hw' : d.1 % 256 = d.1 := Nat.mod_eq_of_lt hw
    have hh' : d.2.1 % 256 = d.2.1 := Nat.mod_eq_of_lt hh
    simp only [fontPtrsFrom, readGlyphsFrom]
    have haddr : pre.length - 2 + 2 = pre.length := by omega
    by_cases hd : d.1 = 0 ∨ d.2.1 = 0
    · have hbm : d.2.2 = [] := hemp hd
      have hga : readGlyphAt bs (pre.length - 2 + 2) = some none := by
        rw [haddr]
        unfold readGlyphAt
        rw [hrw, hrh]
        simp only [List.getD_cons_zero, hw', hh']
        rw [if_pos hd]
      rw [hga]
      have ih := readGlyphsFrom_build rest (i + 1) (pre ++ glyphPayload d) bs hbs'
        (by simp [List.length_append]; omega)
        (fun x hx => hok x (by simp [hx]))
      rw [show (pre ++ glyphPayload d).length = pre.length + (2 + d.2.2.length) from by
        simp [glyphPayload, List.length_append]; omega] at ih
      rw [ih]
      simp [glyphsOfDatas, hd]
    · have hbmlen : d.2.2.length = d.2.1 * rowBytesOf d.1 := hfull hd
      have hga : readGlyphAt bs (pre.length - 2 + 2) =
          some (some (create_image d.1 d.2.1 d.2.2)) := by
        rw [haddr]
        unfold readGlyphAt
        rw [hrw, hrh]
        simp only [List.getD_cons_zero, hw', hh']
        rw [if_neg hd]
        have hclamp : readClamped bs (pre.length + 2) (d.2.1 * rowBytesOf d.1) = d.2.2 := by
          unfold readClamped
          rw [show bs.drop (pre.length + 2) = d.2.2 ++ (rest.map glyphPayload).flatten from by
            rw [show pre.length + 2 = pre.length + 1 + 1 from by omega,
              ← List.tail_drop, ← List.tail_drop, hdrop]; rfl]
          rw [← hbmlen, List.take_left]
        rw [hclamp]
        rw [if_neg (by omega)]
      rw [hga]
      have ih := readGlyphsFrom_build rest (i + 1) (pre ++ glyphPayload d) bs hbs'
        (by simp [List.length_append]; omega)
        (fun x hx => hok x (by simp [hx]))
      rw [show (pre ++ glyphPayload d).length = pre.length + (2 + d.2.2.length) from by
        simp [glyphPayload, List.length_append]; omega] at ih
      rw [ih]
      simp [glyphsOfDatas, hd]

/-! ## Index bookkeeping for the font builder -/

theorem foldl_max_le : ∀ {l : List Nat} {a m : Nat}, a ≤ m → (∀ x ∈ l, x ≤ m) →
    l.foldl max a ≤ m
  | [], _, _, ha, _ => ha
  | x :: t, a, m, ha, h => by
    rw [List.foldl_cons]
    exact foldl_max_le (max_le ha (h x (by simp))) (fun y hy => h y (by simp [hy]))

theorem le_foldl_max : ∀ (l : List Nat) (a : Nat), a ≤ l.foldl max a
  | [], _ => le_refl _
  | x :: t, a => by
    rw [List.foldl_cons]
    exact le_trans (le_max_left a x) (le_foldl_max t (max a x))

theorem mem_le_foldl_max : ∀ {l : List Nat} {x : Nat}, x ∈ l → ∀ (a : Nat), x ≤ l.foldl max a
  | x :: t, y, hy, a => by
    rw [List.foldl_cons]
    rcases List.mem_cons.mp hy with h | h
    · subst h
      exact le_trans (le_max_right a y) (le_foldl_max t (max a y))
    · exact mem_le_foldl_max h (max a x)

theorem foldl_max_mem : ∀ (l : List Nat) (a : Nat), l.foldl max a ∈ l ∨ l.foldl max a = a
  | [], _ => Or.inr rfl
  | x :: t, a => by
    rw [List.foldl_cons]
    rcases foldl_max_mem t (max a x) with h | h
    · exact Or.inl (by simp [h])
    · rcases Nat.le_total a x with hax | hxa
      · rw [h, Nat.max_eq_right hax]
        exact Or.inl (by simp)
      · rw [h, Nat.max_eq_left hxa]
        exact Or.inr rfl

/-- A nonempty entry collection attains its maximal index. -/
theorem maxIndex_attained {entries : List (Nat × Glyph)} (he : entries ≠ []) :
    ∃ e ∈ entries, e.1 = maxIndex entries := by
  unfold maxIndex
  rcases foldl_max_mem (entries.map (fun e => e.1)) 0 with h | h
  · obtain ⟨e, hmem, heq⟩ := List.mem_map.mp h
    exact ⟨e, hmem, heq⟩
  · cases entries with
    | nil => exact absurd rfl he
    | cons e0 t =>
      refine ⟨e0, by simp, ?_⟩
      have h1 : e0.1 ≤ ((e0 :: t).map (fun e => e.1)).foldl max 0 :=
        mem_le_foldl_max (by simp) 0
      omega

theorem maxIndex_mem_le {entries : List (Nat × Glyph)} {e : Nat × Glyph}
    (he : e ∈ entries) : e.1 ≤ maxIndex entries :=
  mem_le_foldl_max (List.mem_map.mpr ⟨e, he, rfl⟩) 0

theorem glyphsOfDatas_key_range :
    ∀ (datas : List (Nat × Nat × List Nat)) (i0 : Nat) (e : Nat × Glyph),
      e ∈ glyphsOfDatas i0 datas → i0 ≤ e.1 ∧ e.1 < i0 + datas.length
  | [], _, _, hx => absurd hx (by simp [glyphsOfDatas])
  | d :: rest, i0, e, hx => by
    simp only [glyphsOfDatas] at hx
    by_cases hd : d.1 = 0 ∨ d.2.1 = 0
    · rw [if_pos hd] at hx
      have := glyphsOfDatas_key_range rest (i0 + 1) e hx
      simp only [List.length_cons]
      omega
    · rw [if_neg hd] at hx
      rcases List.mem_cons.mp hx with h | h
      · subst h; simp
      · have := glyphsOfDatas_key_range rest (i0 + 1) e h
        simp only [List.length_cons]
        omega

theorem glyphsOfDatas_find? :
    ∀ (datas : List (Nat × Nat × List Nat)) (i0 j : Nat), j < datas.length →
      (glyphsOfDatas i0 datas).find? (fun e => e.1 == i0 + j) =
        (if (datas.getD j (0, 0, [])).1 = 0 ∨ (datas.getD j (0, 0, [])).2.1 = 0 then none
         else some (i0 + j, create_image (datas.getD j (0, 0, [])).1
           (datas.getD j (0, 0, [])).2.1 (datas.getD j (0, 0, [])).2.2))
  | [], _, j, hj => absurd hj (by simp)
  | d :: rest, i0, 0, _ => by
    simp only [List.getD_cons_zero, Nat.add_zero]
    by_cases hd : d.1 = 0 ∨ d.2.1 = 0
    · rw [if_pos hd]
      simp only [glyphsOfDatas, if_pos hd]
      apply List.find?_eq_none.mpr
      intro e hmem
      have := (glyphsOfDatas_key_range rest (i0 + 1) e hmem).1
      simp only [beq_iff_eq]
      omega
    · rw [if_neg hd]
      simp only [glyphsOfDatas, if_neg hd]
      rw [List.find?_cons_of_pos _ (by simp)]
  | d :: rest, i0, j + 1, hj => by
    simp only [List.getD_cons_succ]
    have ih := glyphsOfDatas_find? rest (i0 + 1) j (by simpa using hj)
    rw [show i0 + (j + 1) = (i0 + 1) + j from by omega]
    by_cases hd : d.1 = 0 ∨ d.2.1 = 0
    · simp only [glyphsOfDatas, if_pos hd]
      exact ih
    · simp only [glyphsOfDatas, if_neg hd]
      rw [List.find?_cons_of_neg _ (by simp; omega)]
      exact ih

/-! ## `parse_font ∘ build_font` and the rebuild -/

theorem charDataOf_of_find?_some {entries : List (Nat × Glyph)} {j : Nat} {e : Nat × Glyph}
    (h : entries.find? (fun e => e.1 == j) = some e) :
    charDataOf entries j = (e.2.width, e.2.height, read_png_to_bitmap e.2) := by
  unfold charDataOf
  rw [h]

theorem charDataOf_of_find?_none {entries : List (Nat × Glyph)} {j : Nat}
    (h : entries.find? (fun e => e.1 == j) = none) :
    charDataOf entries j = (0, 0, []) := by
  unfold charDataOf
  rw [h]

theorem charDataOf_ok {entries : List (Nat × Glyph)}
    (hok : ∀ e ∈ entries, glyphOk e.2) (j : Nat) :
    dataOk (charDataOf entries j) := by
  cases hf : entries.find? (fun e => e.1 == j) with
  | none =>
    rw [charDataOf_of_find?_none hf]
    exact ⟨by norm_num, by norm_num, fun _ => rfl, fun h => absurd (Or.inl rfl) h⟩
  | some e =>
    have hmem := List.mem_of_find?_eq_some hf
    obtain ⟨hw0, hw, hh0, hh, hrl, hrw⟩ := hok e hmem
    rw [charDataOf_of_find?_some hf]
    refine ⟨hw, hh, fun hcon => ?_, fun _ => read_png_to_bitmap_length hrl⟩
    rcases hcon with h | h
    · exact absurd h (by simp; omega)
    · exact absurd h (by simp; omega)

theorem parse_build_font (entries : List (Nat × Glyph)) (lh : Nat) (F : List Nat)
    (he : entries ≠ [])
    (hok : ∀ e ∈ entries, glyphOk e.2)
    (hlh : lh < 65536)
    (hbuild : build_font entries lh = some F)
    (hsz : F.length ≤ 65537) :
    parse_font F = some ⟨0x87, maxIndex entries + 1, lh,
      glyphsOfDatas 0 ((List.range (maxIndex entries + 1)).map (charDataOf entries))⟩ := by
  set n := maxIndex entries + 1 with hn
  set datas := (List.range n).map (charDataOf entries) with hdatas
  set ptrs := fontPtrsFrom (8 + 2 * n) datas with hptrs
  set ptrflat := (ptrs.map pack16).flatten with hptrflat
  set payflat := (datas.map glyphPayload).flatten with hpayflat
  have hdok : ∀ d ∈ datas, dataOk d := by
    intro d hd
    rw [hdatas] at hd
    obtain ⟨j, _, hj⟩ := List.mem_map.mp hd
    rw [← hj]
    exact charDataOf_ok hok j
  have hF : F = [135, 0, 0, 0] ++ (pack16 n ++ (pack16 lh ++ (ptrflat ++ payflat))) := by
    unfold build_font at hbuild
    rw [if_neg (by simpa using he)] at hbuild
    simp only [Option.some.injEq] at hbuild
    rw [← hbuild]
    rw [show pack32 0x87 = [135, 0, 0, 0] from by decide]
    simp only [List.append_assoc]
  have hptrl : ptrs.length = n := by
    rw [hptrs, fontPtrsFrom_length, hdatas]
    simp
  have hptrflatlen : ptrflat.length = 2 * n := by
    rw [hptrflat, List.length_flatten, List.map_map]
    rw [sum_map_const (c := 2) (by intro a _; simp [pack16])]
    rw [hptrl]
  have hpayok : payflat.length = (datas.map (fun d => 2 + d.2.2.length)).sum := by
    rw [hpayflat, List.length_flatten, List.map_map]
    congr 1
    exact List.map_congr_left (fun d _ => by simp [glyphPayload]; omega)
  have hFlen : F.length = 8 + 2 * n + payflat.length := by
    rw [hF]
    simp only [List.length_append, List.length_cons, List.length_nil, pack16, hptrflatlen]
    omega
  have hn65536 : n < 65536 := by omega
  have hpbnd : ∀ p ∈ ptrs, p < 65536 := by
    intro p hp
    rw [hptrs] at hp
    have := fontPtrsFrom_mem_le datas (8 + 2 * n) p (by omega) hp
    rw [← hpayok] at this
    omega
  have h0 : readExact F 0 4 = some [135, 0, 0, 0] := by
    rw [hF]
    unfold readExact
    rw [if_pos (by simp [pack16])]
    simp [pack16]
  have h4 : readExact F 4 2 = some (pack16 n) := by
    rw [hF]
    unfold readExact
    rw [if_pos (by simp [pack16])]
    simp [pack16]
  have h6 : readExact F 6 2 = some (pack16 lh) := by
    rw [hF]
    unfold readExact
    rw [if_pos (by simp [pack16])]
    simp [pack16]
  have hreadptrs : readPtrs F 8 n = some ptrs := by
    have htab := readPtrs_table ptrs ([135, 0, 0, 0] ++ (pack16 n ++ pack16 lh)) payflat F
      (by rw [hF]; simp [List.append_assoc, hptrflat]) hpbnd
    have hpre8 : ([135, 0, 0, 0] ++ (pack16 n ++ pack16 lh)).length = 8 := by simp [pack16]
    rw [hpre8, hptrl] at htab
    exact htab
  have hreadglyphs : readGlyphsFrom F 0 ptrs = some (glyphsOfDatas 0 datas) := by
    have hwalk := readGlyphsFrom_build datas 0
      ([135, 0, 0, 0] ++ (pack16 n ++ (pack16 lh ++ ptrflat))) F
      (by rw [hF]; simp [List.append_assoc, hpayflat])
      (by simp [pack16])
      hdok
    have hpre2n : ([135, 0, 0, 0] ++ (pack16 n ++ (pack16 lh ++ ptrflat))).length = 8 + 2 * n := by
      simp only [List.length_append, List.length_cons, List.length_nil, pack16, hptrflatlen]
      omega
    rw [hpre2n, ← hptrs] at hwalk
    exact hwalk
  unfold parse_font
  rw [h0, h4, h6]
  have hfin : (match readPtrs F 8 (le16 (pack16 n)) with
      | none => none
      | some ptrs' =>
        match readGlyphsFrom F 0 ptrs' with
        | none => none
        | some gs =>
          some (⟨le32 [135, 0, 0, 0], le16 (pack16 n), le16 (pack16 lh), gs⟩ : FontParsed)) =
      some ⟨0x87, n, lh, glyphsOfDatas 0 datas⟩ := by
    rw [le16_pack16 hn65536, le16_pack16 hlh, hreadptrs]
    have hfin2 : (match readGlyphsFrom F 0 ptrs with
        | none => none
        | some gs => some (⟨le32 [135, 0, 0, 0], n, lh, gs⟩ : FontParsed)) =
        some ⟨0x87, n, lh, glyphsOfDatas 0 datas⟩ := by
      rw [hreadglyphs]
      rw [show le32 [135, 0, 0, 0] = 0x87 from by decide]
    exact hfin2
  exact hfin

theorem build_font_congr {l1 l2 : List (Nat × Glyph)} (lh : Nat)
    (hemp : l1 = [] ↔ l2 = [])
    (hmax : maxIndex l1 = maxIndex l2)
    (hcd : ∀ j, j < maxIndex l1 + 1 → charDataOf l1 j = charDataOf l2 j) :
    build_font l1 lh = build_font l2 lh := by
  unfold build_font
  by_cases hempty : l1 = []
  · rw [if_pos (by simp [hempty]), if_pos (by simp [hemp.mp hempty])]
  · rw [if_neg (by simpa using hempty),
      if_neg (by simpa using (fun h2 => hempty (hemp.mpr h2)))]
    have hdeq : (List.range (maxIndex l2 + 1)).map (charDataOf l1) =
        (List.range (maxIndex l2 + 1)).map (charDataOf l2) :=
      List.map_congr_left (fun j hj => hcd j (by
        simp only [List.mem_range] at hj
        rw [hmax]
        exact hj))
    simp only [hmax, hdeq]

/-- Re-building from the glyphs the parser extracted produces the same
bytes as building from the original entries. -/
theorem font_rebuild (entries : List (Nat × Glyph)) (lh : Nat)
    (he : entries ≠ [])
    (hok : ∀ e ∈ entries, glyphOk e.2) :
    build_font
      (glyphsOfDatas 0 ((List.range (maxIndex entries + 1)).map (charDataOf entries))) lh
      = build_font entries lh := by
  set n := maxIndex entries + 1 with hn
  set datas := (List.range n).map (charDataOf entries) with hdatas
  set P := glyphsOfDatas 0 datas with hP
  have hdlen : datas.length = n := by rw [hdatas]; simp
  have hgetD : ∀ j, j < n → datas.getD j (0, 0, []) = charDataOf entries j := by
    intro j hj
    rw [hdatas, getD_map_lt (List.range n) _ j (by simpa using hj) 0]
    rw [List.getD_eq_getElem (List.range n) 0 (by simpa using hj)]
    simp
  have hfindP : ∀ j, j < n →
      P.find? (fun e => e.1 == j) =
        (if (datas.getD j (0, 0, [])).1 = 0 ∨ (datas.getD j (0, 0, [])).2.1 = 0 then none
         else some (j, create_image (datas.getD j (0, 0, [])).1
           (datas.getD j (0, 0, [])).2.1 (datas.getD j (0, 0, [])).2.2)) := by
    intro j hj
    have hfind := glyphsOfDatas_find? datas 0 j (by rw [hdlen]; exact hj)
    simpa using hfind
  obtain ⟨etop, htopmem, htopkey⟩ := maxIndex_attained he
  have htopfind : ∃ e, entries.find? (fun e => e.1 == (n - 1)) = some e ∧
      e ∈ entries ∧ e.1 = n - 1 := by
    have hsome : (entries.find? (fun e => e.1 == (n - 1))).isSome := by
      rw [List.find?_isSome]
      exact ⟨etop, htopmem, by simp [htopkey, hn]⟩
    cases hfind : entries.find? (fun e => e.1 == (n - 1)) with
    | none => rw [hfind] at hsome; exact absurd hsome (by simp)
    | some e =>
      refine ⟨e, rfl, List.mem_of_find?_eq_some hfind, ?_⟩
      have := List.find?_some hfind
      simpa using this
  obtain ⟨etop', htopf, htopmem', htopkey'⟩ := htopfind
  obtain ⟨hw0t, hwt, hh0t, hht, hrlt, hrwt⟩ := hok etop' htopmem'
  have htopdata : datas.getD (n - 1) (0, 0, []) =
      (etop'.2.width, etop'.2.height, read_png_to_bitmap etop'.2) := by
    rw [hgetD (n - 1) (by omega), charDataOf_of_find?_some htopf]
  have hcd : ∀ j, j < n → charDataOf P j = charDataOf entries j := by
    intro j hj
    cases hf : entries.find? (fun e => e.1 == j) with
    | none =>
      have hd0 : datas.getD j (0, 0, []) = (0, 0, []) := by
        rw [hgetD j hj, charDataOf_of_find?_none hf]
      have hnone : P.find? (fun e => e.1 == j) = none := by
        rw [hfindP j hj, hd0]
        simp
      rw [charDataOf_of_find?_none hnone, charDataOf_of_find?_none hf]
    | some e =>
      have hmem := List.mem_of_find?_eq_some hf
      have hgOk := hok e hmem
      obtain ⟨hw0, hw, hh0, hh, hrl, hrw⟩ := hgOk
      have hdj : datas.getD j (0, 0, []) =
          (e.2.width, e.2.height, read_png_to_bitmap e.2) := by
        rw [hgetD j hj, charDataOf_of_find?_some hf]
      have hne : ¬((datas.getD j (0, 0, [])).1 = 0 ∨ (datas.getD j (0, 0, [])).2.1 = 0) := by
        rw [hdj]
        push_neg
        exact ⟨by simp; omega, by simp; omega⟩
      have hPf : P.find? (fun e => e.1 == j) = some (j, e.2) := by
        rw [hfindP j hj, if_neg hne, hdj]
        simp only
        rw [create_image_pack ⟨hw0, hw, hh0, hh, hrl, hrw⟩]
      rw [charDataOf_of_find?_some hPf, charDataOf_of_find?_some hf]
  have htopP : ((n - 1 : Nat), etop'.2) ∈ P := by
    have hne : ¬((datas.getD (n - 1) (0, 0, [])).1 = 0 ∨
        (datas.getD (n - 1) (0, 0, [])).2.1 = 0) := by
      rw [htopdata]
      push_neg
      exact ⟨by simp; omega, by simp; omega⟩
    have hPf := hfindP (n - 1) (by omega)
    rw [if_neg hne, htopdata] at hPf
    simp only at hPf
    rw [create_image_pack ⟨hw0t, hwt, hh0t, hht, hrlt, hrwt⟩] at hPf
    exact List.mem_of_find?_eq_some hPf
  have hPne : P ≠ [] := fun hnil => by
    rw [hnil] at htopP
    exact absurd htopP (by simp)
  have hkeyrange : ∀ e ∈ P, e.1 < n := by
    intro e hmem
    have hr := (glyphsOfDatas_key_range datas 0 e (by rw [← hP]; exact hmem)).2
    rw [hdlen] at hr
    omega
  have hmaxP : maxIndex P = n - 1 := by
    unfold maxIndex
    apply Nat.le_antisymm
    · apply foldl_max_le (by omega)
      intro x hx
      obtain ⟨e, hmem, hkey⟩ := List.mem_map.mp hx
      have := hkeyrange e hmem
      omega
    · have hmm : (n - 1) ∈ P.map (fun e => e.1) := List.mem_map.mpr ⟨_, htopP, rfl⟩
      exact mem_le_foldl_max hmm 0
  apply build_font_congr lh
  · exact iff_of_false hPne he
  · rw [hmaxP, hn]
    omega
  · intro j hj
    rw [hmaxP] at hj
    exact hcd j (by omega)

/-! ## String-resource idempotence -/

theorem mapOpt_inverse {f : α → Option β} {g : β → Option α}
    (hinv : ∀ a b, f a = some b → g b = some a) :
    ∀ {l : List α} {l' : List β}, mapOpt f l = some l' → mapOpt g l' = some l
  | [], l', h => by
    rw [mapOpt_nil] at h
    simp only [Option.some.injEq] at h
    rw [← h, mapOpt_nil]
  | a :: l, l', h => by
    rw [mapOpt_cons] at h
    cases ha : f a with
    | none => rw [ha] at h; exact absurd h (by simp)
    | some b =>
      rw [ha] at h
      cases hl : mapOpt f l with
      | none => rw [hl] at h; exact absurd h (by simp)
      | some t =>
        rw [hl] at h
        simp only [Option.map_some', Option.some.injEq] at h
        rw [← h, mapOpt_cons, hinv a b ha, mapOpt_inverse hinv hl]
        rfl

theorem win1255_encode_decode {b c : Nat} (h : win1255DecodeByte b = some c) :
    win1255EncodeChar c = some b := by
  unfold win1255DecodeByte at h
  unfold win1255EncodeChar
  by_cases hb : b < 128
  · rw [if_pos hb] at h
    simp only [Option.some.injEq] at h
    rw [← h, if_pos hb]
  · rw [if_neg hb] at h
    by_cases hr : 0xE0 ≤ b ∧ b ≤ 0xFA
    · rw [if_pos hr] at h
      simp only [Option.some.injEq] at h
      rw [← h]
      rw [if_neg (show ¬(b - 0xE0 + 0x5D0 < 128) from by omega)]
      rw [if_pos (show 0x5D0 ≤ b - 0xE0 + 0x5D0 ∧ b - 0xE0 + 0x5D0 ≤ 0x5EA from by omega)]
      rw [show b - 0xE0 + 0x5D0 - 0x5D0 + 0xE0 = b from by omega]
    · rw [if_neg hr] at h
      exact absurd h (by simp)

theorem texDecodeChunk_encode (c : List Nat) :
    mapOpt win1255EncodeChar (texDecodeChunk c) = some (texEncOf c) := by
  unfold texDecodeChunk texEncOf
  cases hd : mapOpt win1255DecodeByte c with
  | none => rfl
  | some s => exact mapOpt_inverse (fun a b ha => win1255_encode_decode ha) hd

theorem texEncOf_no_zero {c : List Nat} (h : (0 : Nat) ∉ c) : (0 : Nat) ∉ texEncOf c := by
  unfold texEncOf
  cases mapOpt win1255DecodeByte c with
  | none => simp
  | some s => exact h

theorem splitNull_mem_no_zero :
    ∀ (l : List Nat) (c : List Nat), c ∈ splitNull l → (0 : Nat) ∉ c
  | [], c, hc => by
    simp only [splitNull, List.mem_singleton] at hc
    simp [hc]
  | b :: t, c, hc => by
    by_cases hb : b = 0
    · subst hb
      rw [show splitNull ((0 : Nat) :: t) = [] :: splitNull t from rfl] at hc
      rcases List.mem_cons.mp hc with h | h
      · simp [h]
      · exact splitNull_mem_no_zero t c h
    · rw [splitNull_cons_ne hb] at hc
      rcases List.mem_cons.mp hc with h | h
      · subst h
        intro hmem
        rcases List.mem_cons.mp hmem with h0 | h0
        · exact hb h0.symm
        · have hhead : (splitNull t).headD [] ∈ splitNull t := by
            cases ht : splitNull t with
            | nil => exact absurd ht (splitNull_ne_nil t)
            | cons x xs => simp
          exact splitNull_mem_no_zero t _ hhead h0
      · have htail : c ∈ splitNull t := by
          cases ht : splitNull t with
          | nil => exact absurd ht (splitNull_ne_nil t)
          | cons x xs =>
            rw [ht] at h
            exact List.mem_cons_of_mem x (by simpa using h)
        exact splitNull_mem_no_zero t c htail

theorem splitNull_terminated :
    ∀ (c : List Nat) (r : List Nat), (0 : Nat) ∉ c →
      splitNull (c ++ 0 :: r) = c :: splitNull r
  | [], r, _ => by simp [splitNull]
  | b :: t, r, h => by
    simp only [List.mem_cons, not_or] at h
    rw [List.cons_append, splitNull_cons_ne (fun hb => h.1 hb.symm)]
    rw [splitNull_terminated t r h.2]
    rfl

theorem splitNull_flatten_chunks :
    ∀ (chunks : List (List Nat)), (∀ c ∈ chunks, (0 : Nat) ∉ c) →
      splitNull ((chunks.map (fun c => c ++ [0])).flatten) = chunks ++ [[]]
  | [], _ => rfl
  | c :: rest, h => by
    rw [List.map_cons, List.flatten_cons]
    rw [show (c ++ [0]) ++ (rest.map (fun c => c ++ [0])).flatten =
        c ++ 0 :: (rest.map (fun c => c ++ [0])).flatten from by simp]
    rw [splitNull_terminated c _ (h c (by simp))]
    rw [splitNull_flatten_chunks rest (fun x hx => h x (by simp [hx]))]
    rfl

theorem texDecodeChunk_of_enc (c : List Nat) :
    texDecodeChunk (texEncOf c) = texDecodeChunk c := by
  unfold texEncOf
  cases hd : mapOpt win1255DecodeByte c with
  | none =>
    unfold texDecodeChunk
    rw [hd, mapOpt_nil]
  | some s => rfl

theorem mapOpt_map_eq_some {α β γ : Type} {f : β → Option γ} {g : α → β} {h : α → γ} :
    ∀ {l : List α}, (∀ a ∈ l, f (g a) = some (h a)) →
      mapOpt f (l.map g) = some (l.map h)
  | [], _ => rfl
  | a :: l, hl => by
    rw [List.map_cons, mapOpt_cons, hl a (by simp),
      mapOpt_map_eq_some (fun x hx => hl x (by simp [hx]))]
    rfl

/-- Parsing, rebuilding and re-parsing a string resource gives the same
strings: the codec layer's idempotence for the TEX format. -/
theorem tex_idempotent (X : List Nat) :
    ∃ Y, convert_tsv_to_tex (read_tex_strings X) = some Y ∧
      read_tex_strings Y = read_tex_strings X := by
  set chunks := (splitNull (X.drop 2)).dropLast with hchunks
  have hcz : ∀ c ∈ chunks, (0 : Nat) ∉ c := by
    intro c hc
    exact splitNull_mem_no_zero (X.drop 2) c (List.dropLast_subset _ (hchunks ▸ hc))
  have hL : read_tex_strings X = chunks.map texDecodeChunk := rfl
  have hencAll : mapOpt (fun s => mapOpt win1255EncodeChar s) (chunks.map texDecodeChunk) =
      some (chunks.map texEncOf) :=
    mapOpt_map_eq_some (fun c _ => texDecodeChunk_encode c)
  refine ⟨[0x83, 0x00] ++ (((chunks.map texEncOf).map (fun e => e ++ [0])).flatten), ?_, ?_⟩
  · unfold convert_tsv_to_tex
    rw [hL, hencAll]
    rfl
  · unfold read_tex_strings
    have hY2 : ([0x83, 0x00] ++ (((chunks.map texEncOf).map (fun e => e ++ [0])).flatten)).drop 2
        = ((chunks.map texEncOf).map (fun e => e ++ [0])).flatten := rfl
    rw [hY2]
    rw [splitNull_flatten_chunks (chunks.map texEncOf) (by
      intro c hc
      obtain ⟨c0, hc0, hc0e⟩ := List.mem_map.mp hc
      rw [← hc0e]
      exact texEncOf_no_zero (hcz c0 hc0))]
    rw [List.dropLast_concat, List.map_map]
    rw [List.map_congr_left (fun c _ => by
      simp only [Function.comp_apply]
      exact texDecodeChunk_of_enc c)]

/-- C2 (amended): the builder writes `reserved = 0x87` unconditionally
and takes `lineHeight` from its caller, so for a font binary in the
builder's image (valid dense glyph set, sizes in u16 range) the round
trip `build(parse(F)) = F` holds — the reserved and lineHeight fields
are preserved exactly because such an `F` already carries `0x87` and the
builder's line height. -/
theorem font_roundtrip_builder_image :
    ∀ (entries : List (Nat × Glyph)) (lh : Nat) (F : List Nat),
      entries ≠ [] →
      (∀ e ∈ entries, glyphOk e.2) →
      lh < 65536 →
      build_font entries lh = some F →
      F.length ≤ 65537 →
      ∃ p, parse_font F = some p ∧ p.reserved = 0x87 ∧ p.lineHeight = lh ∧
        build_font p.glyphs p.lineHeight = some F := by
  intro entries lh F he hok hlh hbuild hsz
  refine ⟨_, parse_build_font entries lh F he hok hlh hbuild hsz, rfl, rfl, ?_⟩
  show build_font
    (glyphsOfDatas 0 ((List.range (maxIndex entries + 1)).map (charDataOf entries))) lh
    = some F
  rw [font_rebuild entries lh he hok]
  exact hbuild

/-- Witness for `font_roundtrip_builder_image` on a one-glyph font. -/
theorem font_roundtrip_builder_image_witness :
    ∃ p, parse_font c2F1 = some p ∧ p.reserved = 0x87 ∧ p.lineHeight = 7 ∧
      build_font p.glyphs p.lineHeight = some c2F1 :=
  font_roundtrip_builder_image [(0, c2glyph)] 7 c2F1
    (by decide) (by decide) (by decide) (by decide) (by decide)

/-- C2 counterexample: `build(parse(F)) == F` fails for the well-formed
font `c2F0` whose reserved field is 0 — the rebuild forces the first
header byte to 0x87 (135). -/
theorem font_roundtrip_counterexample :
    (parse_font c2F0).isSome = true ∧
    (parse_font c2F0).bind (fun p => build_font p.glyphs p.lineHeight) = some c2F1 ∧
    c2F1 ≠ c2F0 ∧
    c2F0.getD 0 9 = 0 ∧ c2F1.getD 0 9 = 135 := by decide

/-- C4 (amended): `parse(build(parse(X))) = parse(X)` holds for every
string resource; for the message format it holds on builder-image
binaries whose texts are nonzero-ASCII (re-encoding is then
byte-identical); for the font format it holds on builder-image binaries
(valid glyphs, sizes in u16 range). -/
theorem codec_idempotence :
    (∀ X : List Nat, ∃ Y, convert_tsv_to_tex (read_tex_strings X) = some Y ∧
      read_tex_strings Y = read_tex_strings X) ∧
    (∀ (recs : List MsgRecord) (M : List Nat),
      (∀ r ∈ recs, msgFieldsOk r) → (∀ r ∈ recs, asciiText r.text) →
      recs.length < 65536 →
      12 + recs.length * 11 + msgTextSize (recs.map (fun r => r.text)) ≤ 65537 →
      create_msg_file recs = some M →
      ((parse_msg_file M).bind create_msg_file).bind parse_msg_file = parse_msg_file M) ∧
    (∀ (entries : List (Nat × Glyph)) (lh : Nat) (F : List Nat),
      entries ≠ [] → (∀ e ∈ entries, glyphOk e.2) → lh < 65536 →
      build_font entries lh = some F → F.length ≤ 65537 →
      ((parse_font F).bind (fun p => build_font p.glyphs p.lineHeight)).bind parse_font =
        parse_font F) := by
  refine ⟨tex_idempotent, ?_, ?_⟩
  · intro recs M hf ht hn hsz hM
    obtain ⟨M0, hc0, hp0⟩ := parse_create_msg recs hf ht hn hsz
    have hMM : M = M0 := by
      rw [hM] at hc0
      exact (Option.some.injEq _ _).mp hc0
    subst hMM
    rw [hp0]
    have hfst : (recs.zip (msgOffsets (recs.map (fun r => r.text)))).map (fun p => p.1)
        = recs := by
      apply List.map_fst_zip
      rw [msgOffsets, msgOffsetsFrom_length, List.length_map]
    have hPc : create_msg_file
        ((recs.zip (msgOffsets (recs.map (fun r => r.text)))).map recOf) = some M := by
      rw [create_msg_file_map_offsets, hfst]
      exact hc0
    rw [Option.some_bind, hPc, Option.some_bind, hp0]
  · intro entries lh F he hok hlh hbuild hsz
    have hp := parse_build_font entries lh F he hok hlh hbuild hsz
    have hb2 : build_font
        (glyphsOfDatas 0 ((List.range (maxIndex entries + 1)).map (charDataOf entries))) lh
        = some F := by
      rw [font_rebuild entries lh he hok]
      exact hbuild
    rw [hp, Option.some_bind]
    show (build_font
      (glyphsOfDatas 0 ((List.range (maxIndex entries + 1)).map (charDataOf entries))) lh).bind
        parse_font = _
    rw [hb2, Option.some_bind, hp]

/-- Witness for `codec_idempotence` at concrete instances of all three
formats. -/
theorem codec_idempotence_witness :
    (∃ Y, convert_tsv_to_tex (read_tex_strings [0x83, 0, 65, 0]) = some Y ∧
      read_tex_strings Y = read_tex_strings [0x83, 0, 65, 0]) ∧
    (((parse_msg_file c4M1).bind create_msg_file).bind parse_msg_file =
      parse_msg_file c4M1) ∧
    ((parse_font c2F1).bind (fun p => build_font p.glyphs p.lineHeight)).bind parse_font =
      parse_font c2F1 :=
  ⟨codec_idempotence.1 [0x83, 0, 65, 0],
   codec_idempotence.2.1 [c7recA] c4M1 (by decide) (by decide) (by decide) (by decide)
     (by decide),
   codec_idempotence.2.2 [(0, c2glyph)] 7 c2F1 (by decide) (by decide) (by decide)
     (by decide) (by decide)⟩

/-- C4 counterexample: for the well-formed one-record message table
`c4X0` whose text byte is `0x80`, re-parsing the rebuilt file changes
the text — parse decodes with CP862 (`0x80 ↦ U+05D0`) while the build
encodes with windows-1255 (`U+05D0 ↦ 0xE0`), and `0xE0` re-decodes as
`U+03B1`. -/
theorem codec_idempotence_counterexample :
    (parse_msg_file c4X0).isSome = true ∧
    (((parse_msg_file c4X0).bind create_msg_file).bind parse_msg_file).isSome = true ∧
    ((parse_msg_file c4X0).bind create_msg_file).bind parse_msg_file ≠
      parse_msg_file c4X0 ∧
    (parse_msg_file c4X0).map (fun l => l.map (fun r => r.text)) = some [[0x5D0]] ∧
    (((parse_msg_file c4X0).bind create_msg_file).bind parse_msg_file).map
      (fun l => l.map (fun r => r.text)) = some [[0x3B1]] := by decide

/-- C5 (amended): fixed-width integer reads (header fields, pointer and
record entries, glyph dimensions) do fail when fewer than N bytes
remain; but the font parser's glyph-bitmap read silently returns short
data and skips that glyph while the parse succeeds, and the
null-terminated text read treats end-of-buffer as a terminator. -/
theorem truncation_behavior :
    (∀ bs : List Nat, bs.length < 8 → parse_font bs = none) ∧
    (∀ bs : List Nat, bs.length < 12 → parse_msg_file bs = none) ∧
    parse_font c5F2 = some ⟨0, 1, 12, []⟩ ∧
    parse_msg_file c5X1 = some [⟨0, 0, 0, 0, 0, 21, 0, 0, 0, 0, []⟩] := by
  refine ⟨?_, ?_, by decide, by decide⟩
  · intro bs hlen
    have h6 : readExact bs 6 2 = none := by
      unfold readExact
      rw [if_neg (by omega)]
    cases h0 : readExact bs 0 4 <;> cases h4 : readExact bs 4 2 <;>
      simp [parse_font, h0, h4, h6]
  · intro bs hlen
    have h10 : readExact bs 10 2 = none := by
      unfold readExact
      rw [if_neg (by omega)]
    cases h6 : readExact bs 6 2 <;> cases h8 : readExact bs 8 2 <;>
      simp [parse_msg_file, h6, h8, h10]

/-- Witness for `truncation_behavior` at the empty buffer. -/
theorem truncation_behavior_witness :
    parse_font ([] : List Nat) = none ∧ parse_msg_file ([] : List Nat) = none :=
  ⟨truncation_behavior.1 [] (by decide), truncation_behavior.2.1 [] (by decide)⟩

/-- C5 counterexample: the glyph of `c5F2` declares an 8×2 bitmap
(2 bytes) but only one byte remains; the read returns short data and the
parse still succeeds (the glyph is skipped), instead of failing with an
end-of-file condition.  Likewise `c5X1`'s text read hits end-of-buffer
and silently yields the empty string. -/
theorem truncation_counterexample :
    readClamped c5F2 12 2 = [255] ∧
    (readClamped c5F2 12 2).length < 2 * rowBytesOf 8 ∧
    parse_font c5F2 = some ⟨0, 1, 12, []⟩ ∧
    parse_font c5F2 ≠ none ∧
    readCString c5X1 23 = [] ∧
    (parse_msg_file c5X1).isSome = true := by decide

end SCIHebrew

